import Mathlib

/-!
# Verification of the Markdown-to-HTML core (`src/utils/textUtils.ts`)

This file shallowly embeds the two algorithmic functions of the repository,
`escapeHtml` and `markdownToHtml`, as executable Lean functions on `List Char`,
and proves the specification claims about them.

The JavaScript source works by a fixed sequence of global regular-expression
substitution passes over one string buffer.  Each pass is embedded as a
recursive scanner on `List Char` that reproduces the left-to-right,
non-overlapping global-replacement semantics of the corresponding regex.
Scanners take a `Nat` fuel argument (structural recursion, so that the kernel
can evaluate them); every recursive call consumes at least one character of the
input, so the top-level wrappers supply `length + 1` fuel, which is never
exhausted.  The fuel-exhausted branch returns the remaining input unchanged.
-/

namespace TextUtils

/-- The JavaScript `\s` character class (also the character set trimmed by
`String.prototype.trim`): ASCII whitespace plus the Unicode space characters. -/
def isSpace (c : Char) : Bool :=
  c = ' ' || c = '\t' || c = '\n' || c = '\r' || c.val = 11 || c.val = 12 ||
  c.val = 0xa0 || c.val = 0x1680 || (0x2000 ≤ c.val && c.val ≤ 0x200a) ||
  c.val = 0x2028 || c.val = 0x2029 || c.val = 0x202f || c.val = 0x205f ||
  c.val = 0x3000 || c.val = 0xfeff

/-- The `[A-Za-z0-9]` character class of the speaker-label regex. -/
def isAlnumAscii (c : Char) : Bool :=
  ('A' ≤ c && c ≤ 'Z') || ('a' ≤ c && c ≤ 'z') || ('0' ≤ c && c ≤ '9')

/-- JavaScript `String.prototype.trim` on a character list: drop the
whitespace characters from both ends. -/
def trimL (s : List Char) : List Char :=
  ((s.dropWhile isSpace).reverse.dropWhile isSpace).reverse

/-- Split a character list at the first occurrence of the pattern `pat`:
returns the part strictly before the occurrence and the part strictly after
it, or `none` when `pat` does not occur.  This is the search step of a global
regex replacement with a literal pattern. -/
def splitFirst (pat : List Char) : List Char → Option (List Char × List Char)
  | [] => if pat.isPrefixOf ([] : List Char) then some ([], []) else none
  | c :: rest =>
    if pat.isPrefixOf (c :: rest) then some ([], (c :: rest).drop pat.length)
    else
      match splitFirst pat rest with
      | some (pre, suf) => some (c :: pre, suf)
      | none => none


/-- Executable substring test: `hasSub pat s` holds exactly when `pat`
occurs contiguously inside `s`. -/
def hasSub (pat : List Char) : List Char → Bool
  | [] => pat.isEmpty
  | c :: rest => pat.isPrefixOf (c :: rest) || hasSub pat rest


/-- One escaping step of `escapeHtml`: `text.replace(/X/g, r)` for a
single-character pattern `X` replaces every occurrence of the character by the
replacement string. -/
def replaceCharL (c : Char) (r : List Char) (s : List Char) : List Char :=
  s.flatMap fun x => if x = c then r else [x]

/-- `escapeHtml` on a character list: the five sequential global replacements
of the source, in source order (`&` first, then `<`, `>`, `"`, `'`). -/
def escapeHtmlL (s : List Char) : List Char :=
  replaceCharL '\'' "&#039;".data <|
    replaceCharL '"' "&quot;".data <|
      replaceCharL '>' "&gt;".data <|
        replaceCharL '<' "&lt;".data <|
          replaceCharL '&' "&amp;".data s

/-!
## The rewrite passes of `markdownToHtml`

Source order (lines 78–161 of `textUtils.ts`):
escape, fenced code, inline code, speaker labels, bold (`**` then `__`),
italic (`*` then `_`), unordered lists + merge, ordered lists + merge,
paragraph assembly, empty-paragraph removal.
-/

/-- `html.replace(/```([\s\S]*?)```/g, m => \x7b <pre><code> + trim + </code></pre> \x7d)`:
repeatedly find the first `` ``` ``, then the next `` ``` `` after it
(non-greedy content, newlines allowed), and replace the whole span.
When no closing fence exists there is no match at all and the rest of the
buffer is returned unchanged. -/
def fencePass : Nat → List Char → List Char
  | 0, s => s
  | fuel+1, s =>
    match splitFirst "```".data s with
    | none => s
    | some (pre, rest1) =>
      match splitFirst "```".data rest1 with
      | none => s
      | some (content, rest2) =>
        pre ++ "<pre><code>".data ++ trimL content ++ "</code></pre>".data ++
          fencePass fuel rest2

/-- `html.replace(/`([^`]+?)`/g, '<code>$1</code>')`: a backtick pair with
non-empty backtick-free content becomes an inline-code container; a backtick
immediately followed by another backtick does not open a match (the `+`
requires at least one content character), and scanning resumes at the second
backtick. -/
def inlineCodePass : Nat → List Char → List Char
  | 0, s => s
  | fuel+1, s =>
    match splitFirst ['`'] s with
    | none => s
    | some (pre, rest) =>
      match splitFirst ['`'] rest with
      | none => s
      | some ([], _) => pre ++ ['`'] ++ inlineCodePass fuel rest
      | some (content, rest2) =>
        pre ++ "<code>".data ++ content ++ "</code>".data ++
          inlineCodePass fuel rest2

/-- One match attempt of the speaker-label regex
`/^(?:<strong>)?(Speaker\s[A-Za-z0-9]+:)(?:<\/strong>)?/` at the current
position: optional literal `<strong>`, the literal `Speaker`, one whitespace
character, a non-empty greedy alphanumeric token, a colon, then an optional
literal `</strong>`.  Returns the captured group (the label without the
wrappers) and the rest of the input after the whole match. -/
def speakerMatch (s : List Char) : Option (List Char × List Char) :=
  let t1 := if "<strong>".data.isPrefixOf s then s.drop 8 else s
  if "Speaker".data.isPrefixOf t1 then
    match t1.drop 7 with
    | w :: t3 =>
      if isSpace w then
        let tok := t3.takeWhile isAlnumAscii
        if tok.isEmpty then none
        else
          match t3.dropWhile isAlnumAscii with
          | ':' :: t5 =>
            let t6 := if "</strong>".data.isPrefixOf t5 then t5.drop 9 else t5
            some ("Speaker".data ++ w :: (tok ++ [':']), t6)
          | _ => none
      else none
    | [] => none
  else none

/-- The speaker-label pass (`/gm` scan): the match is attempted at every
line-start position (start of string, or just after a `'\n'` of the original
buffer); a match is replaced by `<strong>$1</strong>` and scanning resumes
after it (a match never ends in `'\n'`, so never directly at a line start). -/
def speakerScan : Nat → Bool → List Char → List Char
  | 0, _, s => s
  | _+1, _, [] => []
  | fuel+1, atStart, c :: rest =>
    if atStart then
      match speakerMatch (c :: rest) with
      | some (label, t6) =>
        "<strong>".data ++ label ++ "</strong>".data ++ speakerScan fuel false t6
      | none => c :: speakerScan fuel (c == '\n') rest
    else c :: speakerScan fuel (c == '\n') rest

/-- `html.replace(/\*\*(.*?)\*\*/g, '<strong>$1</strong>')` (and the same for
`__`): find the first double delimiter and the next one after it; if the
non-greedy content in between contains no newline (`.` does not match `'\n'`)
the span becomes a strong container.  If the content would cross a newline no
match can start at or before that newline (the lazy close search for any such
opening crosses it), so everything up to the newline is kept and scanning
resumes after it. -/
def boldPass (d : Char) : Nat → List Char → List Char
  | 0, s => s
  | fuel+1, s =>
    match splitFirst [d, d] s with
    | none => s
    | some (pre, rest1) =>
      match splitFirst [d, d] rest1 with
      | none => s
      | some (content, rest2) =>
        match splitFirst ['\n'] content with
        | none =>
          pre ++ "<strong>".data ++ content ++ "</strong>".data ++
            boldPass d fuel rest2
        | some (c1, c2) =>
          pre ++ [d, d] ++ c1 ++ ['\n'] ++ boldPass d fuel (c2 ++ [d, d] ++ rest2)

/-- The close search of the italic regexes `/(^|\s)\*(?!\s)(.*?)(?!\s)\*(\s|$)/g`
(and the `_` variant): lazily extend the non-newline content until a closing
delimiter followed by a whitespace character (captured as `$3`) or the end of
the string.  The `(?!\s)` before the closing delimiter is vacuous in the
source regex (the next character must be the delimiter itself, which is never
whitespace), and is therefore not a constraint here either. -/
def emClose (d : Char) : List Char → Option (List Char × List Char × List Char)
  | [] => none
  | [c] => if c = d then some ([], [], []) else none
  | c1 :: c2 :: rest =>
    if c1 = d && isSpace c2 then some ([], [c2], rest)
    else if c1 = '\n' then none
    else
      match emClose d (c2 :: rest) with
      | some (content, g3, r) => some (c1 :: content, g3, r)
      | none => none

/-- One italic match attempt after the `(^|\s)` boundary: an opening
delimiter whose next character is not whitespace (`(?!\s)`), then the close
search.  Returns `(content, $3, rest-after-match)`. -/
def emCore (d : Char) : List Char → Option (List Char × List Char × List Char)
  | [] => none
  | c :: rest =>
    if c = d then
      match rest with
      | [] => none
      | c2 :: _ => if isSpace c2 then none else emClose d rest
    else none

/-- The `/g` scan of the italic regex at positions after the start of the
string: the `(^|\s)` boundary can only be a consumed whitespace character
(`^` has no `m` flag, so it only matches at position 0). -/
def emScanMid (d : Char) : Nat → List Char → List Char
  | 0, s => s
  | _+1, [] => []
  | fuel+1, c :: rest =>
    if isSpace c then
      match emCore d rest with
      | some (content, g3, rest2) =>
        c :: ("<em>".data ++ content ++ "</em>".data ++ g3 ++
          emScanMid d fuel rest2)
      | none => c :: emScanMid d fuel rest
    else c :: emScanMid d fuel rest

/-- A whole italic pass: at position 0 the `(^|\s)` boundary can be `^`
(consuming nothing); afterwards scanning continues with `emScanMid`. -/
def emPass (d : Char) (s : List Char) : List Char :=
  match emCore d s with
  | some (content, g3, rest) =>
    "<em>".data ++ content ++ "</em>".data ++ g3 ++
      emScanMid d (rest.length + 1) rest
  | none => emScanMid d (s.length + 1) s

/-- One match attempt of `/^[\s]*[-\*]\s+(.*)/` at a line start: greedy
whitespace (which may span newlines), a `-` or `*` marker, at least one
whitespace character, then the rest of the line (`.` stops at `'\n'`).
Returns the captured item and the rest after the match. -/
def ulMatch (s : List Char) : Option (List Char × List Char) :=
  match s.dropWhile isSpace with
  | m :: t2 =>
    if m = '-' || m = '*' then
      if (t2.takeWhile isSpace).isEmpty then none
      else
        let t3 := t2.dropWhile isSpace
        some (t3.takeWhile (fun c => c != '\n'), t3.dropWhile (fun c => c != '\n'))
    else none
  | [] => none

/-- One match attempt of `/^[\s]*[0-9]+\.\s+(.*)/` at a line start. -/
def olMatch (s : List Char) : Option (List Char × List Char) :=
  let t1 := s.dropWhile isSpace
  if (t1.takeWhile Char.isDigit).isEmpty then none
  else
    match t1.dropWhile Char.isDigit with
    | '.' :: t2 =>
      if (t2.takeWhile isSpace).isEmpty then none
      else
        let t3 := t2.dropWhile isSpace
        some (t3.takeWhile (fun c => c != '\n'), t3.dropWhile (fun c => c != '\n'))
    | _ => none

/-- The `/gm` scan shared by the two list passes: the match is attempted at
every line-start position; a match with item `i` is replaced by
`openTags ++ i.trim() ++ closeTags` and scanning resumes after it (such a
match never ends in `'\n'`: the captured `(.*)` is empty only at the end of
the input). -/
def listScan (mf : List Char → Option (List Char × List Char))
    (openTags closeTags : List Char) : Nat → Bool → List Char → List Char
  | 0, _, s => s
  | _+1, _, [] => []
  | fuel+1, atStart, c :: rest =>
    if atStart then
      match mf (c :: rest) with
      | some (item, t4) =>
        openTags ++ trimL item ++ closeTags ++
          listScan mf openTags closeTags fuel false t4
      | none => c :: listScan mf openTags closeTags fuel (c == '\n') rest
    else c :: listScan mf openTags closeTags fuel (c == '\n') rest

/-- `html.replace(/<\/ul>\n?<ul>/g, '')` (and the `<ol>` variant): a closing
tag, an optional single newline (greedy), and an opening tag are deleted;
scanning resumes after the deleted span. -/
def mergePass (closeTag openTag : List Char) : Nat → List Char → List Char
  | 0, s => s
  | _+1, [] => []
  | fuel+1, c :: rest =>
    if closeTag.isPrefixOf (c :: rest) then
      let r1 := (c :: rest).drop closeTag.length
      if ('\n' :: openTag).isPrefixOf r1 then
        mergePass closeTag openTag fuel (r1.drop (openTag.length + 1))
      else if openTag.isPrefixOf r1 then
        mergePass closeTag openTag fuel (r1.drop openTag.length)
      else c :: mergePass closeTag openTag fuel rest
    else c :: mergePass closeTag openTag fuel rest

/-- `html.split(/\n/)` with JavaScript semantics: splitting the empty string
yields `[""]`, a trailing `'\n'` yields a trailing empty line. -/
def splitNl : List Char → List (List Char)
  | [] => [[]]
  | c :: rest =>
    if c = '\n' then [] :: splitNl rest
    else
      match splitNl rest with
      | l :: ls => (c :: l) :: ls
      | [] => [[c]]

/-- The container-prefix test of the paragraph assembler (source line 141):
`line.startsWith('<li>') || ... || line.startsWith('<code>')`. -/
def startsAnyTag (l : List Char) : Bool :=
  "<li>".data.isPrefixOf l || "<ul>".data.isPrefixOf l || "<ol>".data.isPrefixOf l ||
    "<pre>".data.isPrefixOf l || "<code>".data.isPrefixOf l

/-- The per-line body of the paragraph assembler (`lines.map(...)` with the
mutable `inParagraph` flag): returns the emitted text and the new flag. -/
def lineStep (inP : Bool) (line : List Char) : List Char × Bool :=
  let l := trimL line
  if l.isEmpty then
    if inP then ("</p>".data, false) else ([], false)
  else if startsAnyTag l then
    if inP then ("</p>".data ++ l, false) else (l, false)
  else if inP then ("<br />".data ++ l, true)
  else ("<p>".data ++ l, true)

/-- The stateful map-and-join over the split lines: concatenates the per-line
outputs (`join('')`) and returns the final `inParagraph` flag. -/
def paraFold : Bool → List (List Char) → List Char × Bool
  | inP, [] => ([], inP)
  | inP, line :: rest =>
    let p := lineStep inP line
    let q := paraFold p.2 rest
    (p.1 ++ q.1, q.2)

/-- `html.replace(/<p>\s*<\/p>/g, '')`: a `<p>`, a maximal whitespace run and
a `</p>` are deleted. -/
def removeEmptyP : Nat → List Char → List Char
  | 0, s => s
  | _+1, [] => []
  | fuel+1, c :: rest =>
    if "<p>".data.isPrefixOf (c :: rest) then
      let r2 := (rest.drop 2).dropWhile isSpace
      if "</p>".data.isPrefixOf r2 then removeEmptyP fuel (r2.drop 4)
      else c :: removeEmptyP fuel rest
    else c :: removeEmptyP fuel rest

/-- `html.replace(/<p><\/p>/g, '')`. -/
def removeExactP : Nat → List Char → List Char
  | 0, s => s
  | _+1, [] => []
  | fuel+1, c :: rest =>
    if "<p></p>".data.isPrefixOf (c :: rest) then removeExactP fuel (rest.drop 6)
    else c :: removeExactP fuel rest

/-- The whole paragraph stage (source lines 130–161): split on newlines,
fold the line classifier, close a dangling paragraph, remove degenerate
paragraph containers. -/
def paragraphPass (h : List Char) : List Char :=
  let p := paraFold false (splitNl h)
  let body := if p.2 then p.1 ++ "</p>".data else p.1
  let r1 := removeEmptyP (body.length + 1) body
  removeExactP (r1.length + 1) r1

/-- Stage wrappers supplying adequate fuel (`length + 1`; every recursive
call of a scanner consumes at least one input character, so this fuel is
never exhausted). -/
def fenceStage (s : List Char) : List Char := fencePass (s.length + 1) s

def inlineCodeStage (s : List Char) : List Char := inlineCodePass (s.length + 1) s

def speakerStage (s : List Char) : List Char := speakerScan (s.length + 1) true s

def boldStage (d : Char) (s : List Char) : List Char := boldPass d (s.length + 1) s

def ulStage (s : List Char) : List Char :=
  listScan ulMatch "<ul><li>".data "</li></ul>".data (s.length + 1) true s

def ulMergeStage (s : List Char) : List Char :=
  mergePass "</ul>".data "<ul>".data (s.length + 1) s

def olStage (s : List Char) : List Char :=
  listScan olMatch "<ol><li>".data "</li></ol>".data (s.length + 1) true s

def olMergeStage (s : List Char) : List Char :=
  mergePass "</ol>".data "<ol>".data (s.length + 1) s

/-- The full rewrite pipeline of `markdownToHtml` on an already
type-checked, non-blank character list, in source order. -/
def mdPipeline (s : List Char) : List Char :=
  paragraphPass (olMergeStage (olStage (ulMergeStage (ulStage
    (emPass '_' (emPass '*' (boldStage '_' (boldStage '*'
      (speakerStage (inlineCodeStage (fenceStage (escapeHtmlL s))))))))))))

/-- `markdownToHtml` on a string input: the blank-input guard
(`!markdownText.trim()`) followed by the pipeline. -/
def markdownToHtml (markdownText : String) : String :=
  if (trimL markdownText.data).isEmpty then "" else ⟨mdPipeline markdownText.data⟩

/-- A JavaScript value as it may erroneously be passed to the exported
functions: a string or any non-string value (`undefined`, `null`, a number,
a boolean, an object). -/
inductive JSVal where
  | str (s : String)
  | undef
  | nullv
  | num (n : Int)
  | boolean (b : Bool)
  | obj
deriving DecidableEq

/-- `typeof v === 'string'`. -/
def JSVal.isString : JSVal → Bool
  | .str _ => true
  | _ => false

/-- The exported `escapeHtml`, including its `typeof` guard
(`if (typeof text !== 'string') return ''`). -/
def escapeHtml : JSVal → String
  | .str s => ⟨escapeHtmlL s.data⟩
  | _ => ""

/-- The exported `markdownToHtml`, including its `typeof` guard: a
non-string argument is treated as empty input. -/
def markdownToHtmlJS : JSVal → String
  | .str s => markdownToHtml s
  | _ => ""

/-- The per-character escaping map as the specification states it: the five
HTML-significant characters go to their named character references, every
other character is unchanged. -/
def escCharSpec (c : Char) : List Char :=
  if c = '&' then "&amp;".data
  else if c = '<' then "&lt;".data
  else if c = '>' then "&gt;".data
  else if c = '"' then "&quot;".data
  else if c = '\'' then "&#039;".data
  else [c]

/-- Dropping trailing whitespace (the right half of `trimL`). -/
def trimR (s : List Char) : List Char := (s.reverse.dropWhile isSpace).reverse

/-- The complete markup vocabulary inserted by the passes. -/
def tags : List (List Char) :=
  ["<pre>".data, "</pre>".data, "<code>".data, "</code>".data,
   "<strong>".data, "</strong>".data, "<em>".data, "</em>".data,
   "<ul>".data, "</ul>".data, "<ol>".data, "</ol>".data,
   "<li>".data, "</li>".data, "<p>".data, "</p>".data, "<br />".data]

/-- Every character that occurs in some tag. -/
def tagAllChars : List Char :=
  ['<', '>', '/', 'p', 'r', 'e', 'c', 'o', 'd', 's', 't', 'n', 'g', 'm',
   'u', 'l', 'i', 'b', ' ']

/-- The tag whose text begins at the head of `s`, when one does. -/
def chooseTag (s : List Char) : Option (List Char) :=
  tags.find? (fun t => t.isPrefixOf s)

/-- Worker for `tagsOk`: `pend` is the not-yet-consumed remainder of the tag
being read; outside a tag, a free `'>'` is forbidden and a `'<'` must begin
one of the tags. -/
def tagsOkAux : List Char → List Char → Bool
  | pend, [] => pend.isEmpty
  | p :: pend, c :: rest => p == c && tagsOkAux pend rest
  | [], c :: rest =>
    if c = '>' then false
    else if c = '<' then
      match chooseTag (c :: rest) with
      | some t => tagsOkAux (t.drop 1) rest
      | none => false
    else tagsOkAux [] rest

/-- The buffer invariant: a `tagsOk` buffer is a sequence of complete tags
from `tags` and free characters other than `'<'` and `'>'`. -/
def tagsOk (s : List Char) : Bool := tagsOkAux [] s

theorem splitFirst_eq {pat s pre suf : List Char}
    (h : splitFirst pat s = some (pre, suf)) : s = pre ++ pat ++ suf := by
  induction s generalizing pre with
  | nil =>
    simp only [splitFirst] at h
    split at h
    · rename_i hp
      simp only [List.isPrefixOf_iff_prefix, List.prefix_nil] at hp
      simp_all
    · exact absurd h (by simp)
  | cons c rest ih =>
    simp only [splitFirst] at h
    split at h
    · rename_i hp
      rw [List.isPrefixOf_iff_prefix] at hp
      obtain ⟨t, ht⟩ := hp
      simp only [Option.some.injEq, Prod.mk.injEq] at h
      obtain ⟨hpre, hsuf⟩ := h
      subst hpre
      rw [← ht, List.drop_left] at hsuf
      simp [← ht, hsuf]
    · revert h
      cases hrec : splitFirst pat rest with
      | none => intro h; exact absurd h (by simp)
      | some pr =>
        obtain ⟨pre', suf'⟩ := pr
        intro h
        simp only [Option.some.injEq, Prod.mk.injEq] at h
        obtain ⟨hpre, hsuf⟩ := h
        subst hpre hsuf
        simpa using ih hrec

theorem hasSub_iff_infix (pat s : List Char) : hasSub pat s = true ↔ pat <:+: s := by
  induction s with
  | nil => simp [hasSub, List.infix_nil, List.isEmpty_iff]
  | cons c rest ih =>
    simp only [hasSub, Bool.or_eq_true, List.isPrefixOf_iff_prefix, ih]
    constructor
    · rintro (h | h)
      · exact h.isInfix
      · exact h.trans (List.suffix_cons c rest).isInfix
    · rintro ⟨a, b, hab⟩
      cases a with
      | nil => exact Or.inl ⟨b, by simpa using hab⟩
      | cons x a' =>
        simp only [List.cons_append, List.cons.injEq] at hab
        exact Or.inr ⟨a', b, hab.2⟩


theorem markdownToHtml_blank {s : String} (h : (trimL s.data).isEmpty = true) :
    markdownToHtml s = "" := by
  simp [markdownToHtml, h]

theorem markdownToHtml_data_eq (s : String) (h : (trimL s.data).isEmpty = false) :
    (markdownToHtml s).data = mdPipeline s.data := by
  have h2 : markdownToHtml s = ⟨mdPipeline s.data⟩ := by
    unfold markdownToHtml
    rw [h, if_neg (by decide)]
  rw [h2]

end TextUtils

open TextUtils

/-!
## Claim theorems (concrete behaviour)
-/

/-- C2: the claimed opacity of extracted code content is violated by the code:
on the input `` ```**not bold**``` `` the bold pass rewrites the content of the
code-block container, producing a strong-emphasis container inside it instead
of the literal text `**not bold**`. -/
theorem C2_code_block_not_opaque :
    markdownToHtml "```**not bold**```" =
      "<pre><code><strong>not bold</strong></code></pre>" := by decide

/-- C3 counterexample: on the two-line fenced block ```` ```a\nb``` ```` the
interior fence line `b</code></pre>` does not start with a container tag, so
the block assembler wraps it in a paragraph container, contradicting the claim
that every line that is part of a code-block container is passed through
unwrapped.  The output contains `<p>b`. -/
theorem C3_counterexample_interior_fence_line_wrapped :
    markdownToHtml "```a\nb```" = "<pre><code>a<p>b</code></pre></p>" ∧
      hasSub "<p>b".data (markdownToHtml "```a\nb```").data = true := by
  constructor <;> decide

/-- C3 amended: during block assembly, exactly the lines that, after
trimming, begin with one of the container tags `<li>`, `<ul>`, `<ol>`,
`<pre>`, `<code>` are passed through without being wrapped in a paragraph
container, with an open paragraph closed first; every other non-empty line is
wrapped (opened with `<p>` or continued with `<br />`). -/
theorem C3_amended_pass_through_is_prefix_test (inP : Bool) (line : List Char)
    (hne : (trimL line).isEmpty = false) :
    (startsAnyTag (trimL line) = true →
      lineStep inP line =
        ((if inP then "</p>".data else []) ++ trimL line, false)) ∧
    (startsAnyTag (trimL line) = false →
      lineStep inP line =
        ((if inP then "<br />".data else "<p>".data) ++ trimL line, true)) := by
  constructor <;> intro hs <;> cases inP <;> simp [lineStep, hne, hs]

/-- Witness for `C3_amended_pass_through_is_prefix_test` at a concrete line. -/
theorem C3_amended_pass_through_is_prefix_test_witness :
    (trimL " <ul><li>x</li></ul>".data).isEmpty = false ∧
      lineStep true " <ul><li>x</li></ul>".data =
        ("</p><ul><li>x</li></ul>".data, false) := by
  refine ⟨by decide, ?_⟩
  have h := (C3_amended_pass_through_is_prefix_test true " <ul><li>x</li></ul>".data
    (by decide)).1 (by decide)
  simpa using h

/-- C5: consecutive same-marker list lines merge into a single container with
one item per line in order; adjacent containers of different kinds stay
separate siblings. -/
theorem C5_list_merging :
    markdownToHtml "- a\n- b\n- c" = "<ul><li>a</li><li>b</li><li>c</li></ul>" ∧
      markdownToHtml "- a\n1. b" = "<ul><li>a</li></ul><ol><li>b</li></ol>" := by
  constructor <;> decide

/-- C6: a run of plain text lines becomes one paragraph container with
explicit line-break markers between the lines; an empty line closes the
container and a new run opens a new one. -/
theorem C6_paragraph_linebreaks :
    markdownToHtml "line one\nline two\n\nline three" =
      "<p>line one<br />line two</p><p>line three</p>" := by decide

/-- C7 counterexample: in `a *b* *c* d` both emphasis occurrences have
whitespace-bounded delimiters, yet only the first becomes an emphasis
container — the first match consumes the trailing space as its `$3` boundary,
so the second occurrence no longer has a leading boundary to match. -/
theorem C7_counterexample_second_emphasis_skipped :
    markdownToHtml "a *b* *c* d" = "<p>a <em>b</em> *c* d</p>" ∧
      hasSub "<em>c</em>".data (markdownToHtml "a *b* *c* d").data = false := by
  constructor <;> decide

/-- C7 amended: single-delimiter emphasis is applied in one left-to-right
scan in which each match consumes its trailing whitespace boundary, so of two
whitespace-separated occurrences only the first is converted; an occurrence
whose leading boundary was not consumed is converted; mid-word underscores
and list-marker asterisks never become emphasis. -/
theorem C7_amended_emphasis_scan :
    markdownToHtml "a *b* c" = "<p>a <em>b</em> c</p>" ∧
      markdownToHtml "a *b* *c* d" = "<p>a <em>b</em> *c* d</p>" ∧
      markdownToHtml "a_b_c" = "<p>a_b_c</p>" ∧
      markdownToHtml "* item" = "<ul><li>item</li></ul>" := by
  refine ⟨by decide, by decide, by decide, by decide⟩

/-- C8: the speaker label is wrapped in strong emphasis exactly once, whether
the input already carries `**` markers or not: both inputs render to the same
single-wrapped output. -/
theorem C8_speaker_label_once :
    markdownToHtml "**Speaker 1:** hello" = "<p><strong>Speaker 1:</strong> hello</p>" ∧
      markdownToHtml "Speaker 1: hello" = "<p><strong>Speaker 1:</strong> hello</p>" := by
  constructor <;> decide

/-- C4: `markdownToHtml` is a total function of its argument (it is defined
for every `JSVal`, so it never throws); every non-string argument and every
blank string argument yields the empty string. -/
theorem C4_total_and_blank_empty :
    (∀ v : JSVal, v.isString = false → markdownToHtmlJS v = "") ∧
      (∀ s : String, (trimL s.data).isEmpty = true → markdownToHtml s = "") := by
  constructor
  · intro v hv
    cases v <;> simp_all [JSVal.isString, markdownToHtmlJS]
  · intro s hs
    exact markdownToHtml_blank hs

/-- Witness for `C4_total_and_blank_empty`. -/
theorem C4_total_and_blank_empty_witness :
    markdownToHtmlJS JSVal.undef = "" ∧ markdownToHtml " \n\t " = "" :=
  ⟨C4_total_and_blank_empty.1 JSVal.undef rfl,
    C4_total_and_blank_empty.2 " \n\t " (by decide)⟩

/-!
## C9: the escaper
-/

theorem escapeHtmlL_append (a b : List Char) :
    escapeHtmlL (a ++ b) = escapeHtmlL a ++ escapeHtmlL b := by
  simp [escapeHtmlL, replaceCharL]

theorem escapeHtmlL_single (c : Char) : escapeHtmlL [c] = escCharSpec c := by
  by_cases h1 : c = '&'
  · subst h1; decide
  by_cases h2 : c = '<'
  · subst h2; decide
  by_cases h3 : c = '>'
  · subst h3; decide
  by_cases h4 : c = '"'
  · subst h4; decide
  by_cases h5 : c = '\''
  · subst h5; decide
  simp [escapeHtmlL, replaceCharL, escCharSpec, h1, h2, h3, h4, h5]

theorem escapeHtmlL_eq_flatMap (s : List Char) :
    escapeHtmlL s = s.flatMap escCharSpec := by
  induction s with
  | nil => decide
  | cons c rest ih =>
    have hsplit : (c :: rest) = [c] ++ rest := rfl
    rw [hsplit, escapeHtmlL_append, escapeHtmlL_single, ih]
    simp [List.flatMap_append]

/-- C9: the escaper is exactly the per-character map replacing the five
HTML-significant characters by their named references (so the sequential
passes, ampersand first, never double-escape an entity produced by a later
replacement, and every other character is left unchanged), and a non-string
argument yields the empty string.  Purity and totality hold by construction:
`escapeHtmlL` is a total function of its argument. -/
theorem C9_escape_exactly_five_chars :
    (∀ s : List Char, escapeHtmlL s = s.flatMap escCharSpec) ∧
      (∀ v : JSVal, v.isString = false → escapeHtml v = "") := by
  constructor
  · exact escapeHtmlL_eq_flatMap
  · intro v hv
    cases v <;> simp_all [JSVal.isString, escapeHtml]

/-- Witness for `C9_escape_exactly_five_chars`. -/
theorem C9_escape_exactly_five_chars_witness :
    escapeHtml JSVal.undef = "" ∧
      escapeHtmlL "&<>\"'x".data = "&<>\"'x".data.flatMap escCharSpec :=
  ⟨C9_escape_exactly_five_chars.2 JSVal.undef rfl,
    C9_escape_exactly_five_chars.1 "&<>\"'x".data⟩

/-!
## C10: the output never contains a newline

The paragraph stage splits the buffer on every `'\n'` and rejoins with the
empty string; no replacement string contains a newline, so whatever the
earlier passes produced, `paragraphPass` output is newline-free.
-/

theorem trimL_subset (l : List Char) : trimL l ⊆ l := by
  intro a ha
  unfold trimL at ha
  rw [List.mem_reverse] at ha
  have ha2 := (List.dropWhile_sublist _).subset ha
  rw [List.mem_reverse] at ha2
  exact (List.dropWhile_sublist _).subset ha2

theorem splitNl_no_nl : ∀ s : List Char, ∀ l ∈ splitNl s, '\n' ∉ l := by
  intro s
  induction s with
  | nil =>
    intro l hl
    simp only [splitNl, List.mem_singleton] at hl
    subst hl; simp
  | cons c rest ih =>
    intro l hl
    by_cases hc : c = '\n'
    · subst hc
      have he : splitNl ('\n' :: rest) = [] :: splitNl rest := by
        simp [splitNl]
      rw [he] at hl
      rcases List.mem_cons.mp hl with h | h
      · subst h; simp
      · exact ih l h
    · have he : splitNl (c :: rest) =
          match splitNl rest with
          | l :: ls => (c :: l) :: ls
          | [] => [[c]] := by
        simp [splitNl, hc]
      rw [he] at hl
      rcases hsp : splitNl rest with _ | ⟨l0, ls⟩ <;> rw [hsp] at hl <;>
        simp only [List.mem_singleton, List.mem_cons] at hl
      · rcases hl with h | h
        · subst h
          exact fun hm => hc (List.mem_singleton.mp hm).symm
        · exact absurd h (List.not_mem_nil l)
      · rcases hl with h | h
        · subst h
          intro hmem
          rcases List.mem_cons.mp hmem with h1 | h1
          · exact hc h1.symm
          · exact ih l0 (by rw [hsp]; exact List.mem_cons_self _ _) h1
        · exact ih l (by rw [hsp]; exact List.mem_cons_of_mem _ h)

theorem lineStep_no_nl (inP : Bool) (line : List Char) (h : '\n' ∉ line) :
    '\n' ∉ (lineStep inP line).1 := by
  have ht : '\n' ∉ trimL line := fun hm => h (trimL_subset line hm)
  unfold lineStep
  by_cases h1 : (trimL line).isEmpty = true <;>
    by_cases h2 : startsAnyTag (trimL line) = true <;>
      cases inP <;>
        simp [h1, h2, List.mem_append, ht]

theorem paraFold_no_nl :
    ∀ (ls : List (List Char)) (inP : Bool), (∀ l ∈ ls, '\n' ∉ l) →
      '\n' ∉ (paraFold inP ls).1 := by
  intro ls
  induction ls with
  | nil => intro inP _; simp [paraFold]
  | cons l rest ih =>
    intro inP h
    simp only [paraFold, List.mem_append]
    intro hmem
    rcases hmem with hm | hm
    · exact lineStep_no_nl inP l (h l (List.mem_cons_self _ _)) hm
    · exact ih _ (fun x hx => h x (List.mem_cons_of_mem _ hx)) hm

theorem removeEmptyP_subset : ∀ (fuel : Nat) (s : List Char), removeEmptyP fuel s ⊆ s := by
  intro fuel
  induction fuel with
  | zero => intro s; simp [removeEmptyP, List.Subset.refl]
  | succ n ih =>
    intro s
    cases s with
    | nil => simp [removeEmptyP]
    | cons c rest =>
      simp only [removeEmptyP]
      split_ifs with h1 h2
      · intro a ha
        have hin := ih _ ha
        have hsub : (((rest.drop 2).dropWhile isSpace).drop 4) ⊆ rest := fun x hx =>
          List.drop_subset _ _ ((List.dropWhile_sublist _).subset (List.drop_subset _ _ hx))
        exact List.mem_cons_of_mem _ (hsub hin)
      · intro a ha
        rcases List.mem_cons.mp ha with h | h
        · exact h ▸ List.mem_cons_self _ _
        · exact List.mem_cons_of_mem _ (ih _ h)
      · intro a ha
        rcases List.mem_cons.mp ha with h | h
        · exact h ▸ List.mem_cons_self _ _
        · exact List.mem_cons_of_mem _ (ih _ h)

theorem removeExactP_subset : ∀ (fuel : Nat) (s : List Char), removeExactP fuel s ⊆ s := by
  intro fuel
  induction fuel with
  | zero => intro s; simp [removeExactP, List.Subset.refl]
  | succ n ih =>
    intro s
    cases s with
    | nil => simp [removeExactP]
    | cons c rest =>
      simp only [removeExactP]
      split_ifs with h1
      · intro a ha
        exact List.mem_cons_of_mem _ (List.drop_subset _ _ (ih _ ha))
      · intro a ha
        rcases List.mem_cons.mp ha with h | h
        · exact h ▸ List.mem_cons_self _ _
        · exact List.mem_cons_of_mem _ (ih _ h)

theorem paragraphPass_no_nl (h : List Char) : '\n' ∉ paragraphPass h := by
  intro hmem
  unfold paragraphPass at hmem
  have h1 := removeEmptyP_subset _ _ (removeExactP_subset _ _ hmem)
  have hb : '\n' ∉ (paraFold false (splitNl h)).1 :=
    paraFold_no_nl _ _ (splitNl_no_nl h)
  by_cases hp : (paraFold false (splitNl h)).2
  · rw [if_pos hp] at h1
    rcases List.mem_append.mp h1 with hm | hm
    · exact hb hm
    · exact absurd hm (by decide)
  · rw [if_neg hp] at h1
    exact hb h1

theorem hasSub_singleton (c : Char) (s : List Char) :
    hasSub [c] s = true ↔ c ∈ s := by
  induction s with
  | nil => simp [hasSub]
  | cons x rest ih =>
    simp only [hasSub, Bool.or_eq_true, ih, List.mem_cons, List.isPrefixOf_iff_prefix]
    constructor
    · rintro (h | h)
      · rcases h with ⟨t, ht⟩
        simp only [List.cons_append, List.nil_append, List.cons.injEq] at ht
        exact Or.inl ht.1
      · exact Or.inr h
    · rintro (h | h)
      · exact Or.inl (h ▸ ⟨rest, rfl⟩)
      · exact Or.inr h

/-- C10: for every input string, the rendered output contains no newline
character — block assembly splits the buffer at every newline and rejoins the
mapped lines with the empty separator, and no replacement string contains a
newline, so newlines cannot survive, including those inside multi-line
fenced code blocks. -/
theorem C10_output_newline_free (s : String) :
    hasSub "\n".data (markdownToHtml s).data = false := by
  rw [← Bool.not_eq_true]
  intro hc
  have hc2 : '\n' ∈ (markdownToHtml s).data := by
    have hd : "\n".data = ['\n'] := rfl
    rw [hd] at hc
    exact (hasSub_singleton '\n' (markdownToHtml s).data).mp hc
  by_cases h : (trimL s.data).isEmpty = true
  · rw [markdownToHtml_blank h] at hc2
    simp at hc2
  · have hf : (trimL s.data).isEmpty = false := by simpa using h
    rw [markdownToHtml_data_eq s hf] at hc2
    unfold mdPipeline at hc2
    exact paragraphPass_no_nl _ hc2

/-!
## C1: the output never contains `<script>`

Strategy: the escaped buffer contains no `'<'` or `'>'` at all; every later
pass inserts `'<'`/`'>'` only as part of a fixed set of complete tags, and
deletes text only at positions that cannot split a tag.  The invariant
`tagsOk` states that the buffer parses as a sequence of free characters
(neither `'<'` nor `'>'`) and complete tags from the fixed set; it is
preserved by every pass, and a buffer satisfying it cannot contain the
substring `<script>` (the only tag starting `<s` is `<strong>`, which
differs at its third character).
-/

namespace TextUtils

theorem tagsOkAux_consume (pend r : List Char) :
    tagsOkAux pend (pend ++ r) = tagsOkAux [] r := by
  induction pend with
  | nil => rfl
  | cons p pend ih => simp [tagsOkAux, ih]

theorem tagsOk_cons {c : Char} (h1 : c ≠ '<') (h2 : c ≠ '>') (r : List Char) :
    tagsOk (c :: r) = tagsOk r := by
  simp [tagsOk, tagsOkAux, h1, h2]

theorem tags_ne_nil : ∀ t ∈ tags, t ≠ [] := by decide

theorem tags_head_lt : ∀ t ∈ tags, ∃ t1, t = '<' :: t1 := by
  intro t ht
  fin_cases ht <;> exact ⟨_, rfl⟩

theorem tags_chars : ∀ t ∈ tags, ∀ c ∈ t, c ∈ tagAllChars := by decide

theorem tags_nonprefix :
    ∀ t₁ ∈ tags, ∀ t₂ ∈ tags, t₁.isPrefixOf t₂ = true → t₁ = t₂ := by decide

theorem tagsOk_tag {t : List Char} (ht : t ∈ tags) (r : List Char) :
    tagsOk (t ++ r) = tagsOk r := by
  fin_cases ht <;>
    simp [tagsOk, tagsOkAux, chooseTag, tags, List.find?, List.isPrefixOf, List.drop]

theorem tagsOk_cases {s : List Char} (h : tagsOk s = true) :
    s = [] ∨ (∃ t, t ∈ tags ∧ ∃ r, s = t ++ r ∧ tagsOk r = true) ∨
      (∃ c r, s = c :: r ∧ c ≠ '<' ∧ c ≠ '>' ∧ tagsOk r = true) := by
  cases s with
  | nil => exact Or.inl rfl
  | cons c rest =>
    by_cases hgt : c = '>'
    · subst hgt
      simp [tagsOk, tagsOkAux] at h
    by_cases hlt : c = '<'
    · subst hlt
      rw [show tagsOk ('<' :: rest) =
          (match chooseTag ('<' :: rest) with
           | some t => tagsOkAux (t.drop 1) rest
           | none => false) from by simp [tagsOk, tagsOkAux]] at h
      cases hct : chooseTag ('<' :: rest) with
      | none => rw [hct] at h; exact absurd h (by simp)
      | some t =>
        rw [hct] at h
        have hmem : t ∈ tags := List.mem_of_find?_eq_some hct
        have hpre : t.isPrefixOf ('<' :: rest) = true := by
          simpa using List.find?_some hct
        rw [List.isPrefixOf_iff_prefix] at hpre
        obtain ⟨r, hr⟩ := hpre
        obtain ⟨t1, ht1⟩ := tags_head_lt t hmem
        subst ht1
        have hrest : rest = t1 ++ r := by simpa using hr.symm
        subst hrest
        have h2 : tagsOkAux (('<' :: t1).drop 1) (t1 ++ r) = true := h
        rw [show ('<' :: t1).drop 1 = t1 from rfl, tagsOkAux_consume] at h2
        exact Or.inr (Or.inl ⟨'<' :: t1, hmem, r, rfl, h2⟩)
    · rw [tagsOk_cons hlt hgt] at h
      exact Or.inr (Or.inr ⟨c, rest, rfl, hlt, hgt, h⟩)

end TextUtils

namespace TextUtils

theorem tags_tagsOk : ∀ t ∈ tags, tagsOk t = true := by decide

theorem not_mem_tagAllChars_lt {c : Char} (hc : c ∉ tagAllChars) : c ≠ '<' :=
  fun he => hc (he ▸ (by decide : '<' ∈ tagAllChars))

theorem not_mem_tagAllChars_gt {c : Char} (hc : c ∉ tagAllChars) : c ≠ '>' :=
  fun he => hc (he ▸ (by decide : '>' ∈ tagAllChars))

theorem tagsOk_append :
    ∀ (a b : List Char), tagsOk a = true → tagsOk b = true →
      tagsOk (a ++ b) = true := by
  have H : ∀ n (a : List Char), a.length ≤ n → ∀ b, tagsOk a = true →
      tagsOk b = true → tagsOk (a ++ b) = true := by
    intro n
    induction n with
    | zero =>
      intro a ha b h1 h2
      have he : a = [] := List.eq_nil_of_length_eq_zero (Nat.le_zero.mp ha)
      subst he
      simpa using h2
    | succ n ih =>
      intro a ha b h1 h2
      rcases tagsOk_cases h1 with rfl | ⟨t, ht, r, rfl, hr⟩ | ⟨c, r, rfl, hc1, hc2, hr⟩
      · simpa using h2
      · rw [List.append_assoc, tagsOk_tag ht]
        have hlt : 0 < t.length := List.length_pos.mpr (tags_ne_nil t ht)
        have hlen : r.length ≤ n := by
          simp only [List.length_append] at ha
          omega
        exact ih r hlen b hr h2
      · rw [List.cons_append, tagsOk_cons hc1 hc2]
        have hlen : r.length ≤ n := by
          simp only [List.length_cons] at ha
          omega
        exact ih r hlen b hr h2
  intro a b h1 h2
  exact H a.length a le_rfl b h1 h2

theorem tagsOk_split :
    ∀ (a : List Char) (c : Char) (b : List Char),
      tagsOk (a ++ c :: b) = true → c ∉ tagAllChars →
        tagsOk a = true ∧ tagsOk b = true := by
  have H : ∀ n (a : List Char), a.length ≤ n → ∀ c b,
      tagsOk (a ++ c :: b) = true → c ∉ tagAllChars →
        tagsOk a = true ∧ tagsOk b = true := by
    intro n
    induction n with
    | zero =>
      intro a ha c b h hc
      have he : a = [] := List.eq_nil_of_length_eq_zero (Nat.le_zero.mp ha)
      subst he
      refine ⟨rfl, ?_⟩
      rw [List.nil_append,
        tagsOk_cons (not_mem_tagAllChars_lt hc) (not_mem_tagAllChars_gt hc)] at h
      exact h
    | succ n ih =>
      intro a ha c b h hc
      rcases tagsOk_cases h with habs | ⟨t, ht, r, heq, hr⟩ | ⟨x, r, heq, hx1, hx2, hr⟩
      · exact absurd habs (by simp)
      · rcases List.append_eq_append_iff.mp heq.symm with ⟨x, hx, hrx⟩ | ⟨y, hy, hby⟩
        · -- a = t ++ x, r = x ++ c :: b
          subst hx
          subst hrx
          have hlt : 0 < t.length := List.length_pos.mpr (tags_ne_nil t ht)
          have hlen : x.length ≤ n := by
            simp only [List.length_append] at ha
            omega
          obtain ⟨ha1, ha2⟩ := ih x hlen c b hr hc
          exact ⟨by rw [tagsOk_tag ht]; exact ha1, ha2⟩
        · -- t = a ++ y, c :: b = y ++ r
          cases y with
          | nil =>
            simp only [List.append_nil] at hy
            subst hy
            refine ⟨tags_tagsOk t ht, ?_⟩
            have hre : r = c :: b := by simpa using hby.symm
            subst hre
            rw [tagsOk_cons (not_mem_tagAllChars_lt hc) (not_mem_tagAllChars_gt hc)] at hr
            exact hr
          | cons d y' =>
            exfalso
            have hcd : c = d := by
              have := hby
              simp only [List.cons_append, List.cons.injEq] at this
              exact this.1
            subst hcd
            have hmem : c ∈ t := by
              rw [hy]
              exact List.mem_append_right a (List.mem_cons_self _ _)
            exact hc (tags_chars t ht c hmem)
      · -- generic head x
        cases a with
        | nil =>
          simp only [List.nil_append, List.cons.injEq] at heq
          obtain ⟨rfl, rfl⟩ := heq
          exact ⟨rfl, hr⟩
        | cons a0 a' =>
          simp only [List.cons_append, List.cons.injEq] at heq
          obtain ⟨rfl, hreq⟩ := heq
          subst hreq
          have hlen : a'.length ≤ n := by
            simp only [List.length_cons] at ha
            omega
          obtain ⟨h1, h2⟩ := ih a' hlen c b hr hc
          exact ⟨by rw [tagsOk_cons hx1 hx2]; exact h1, h2⟩
  intro a c b h hc
  exact H a.length a le_rfl c b h hc

theorem tagsOk_dropWhile (p : Char → Bool) (hp : p '<' = false) :
    ∀ (a : List Char), tagsOk a = true → tagsOk (a.dropWhile p) = true := by
  have H : ∀ n (a : List Char), a.length ≤ n → tagsOk a = true →
      tagsOk (a.dropWhile p) = true := by
    intro n
    induction n with
    | zero =>
      intro a ha h
      have he : a = [] := List.eq_nil_of_length_eq_zero (Nat.le_zero.mp ha)
      subst he
      exact h
    | succ n ih =>
      intro a ha h
      rcases tagsOk_cases h with rfl | ⟨t, ht, r, rfl, hr⟩ | ⟨c, r, rfl, hc1, hc2, hr⟩
      · exact h
      · obtain ⟨t1, rfl⟩ := tags_head_lt t ht
        rw [List.cons_append, List.dropWhile_cons_of_neg (by simp [hp])]
        exact h
      · cases hpc : p c with
        | true =>
          rw [List.dropWhile_cons_of_pos hpc]
          have hlen : r.length ≤ n := by
            simp only [List.length_cons] at ha
            omega
          exact ih r hlen hr
        | false =>
          rw [List.dropWhile_cons_of_neg (by simp [hpc])]
          exact h
  intro a h
  exact H a.length a le_rfl h

theorem takeWhile_append_all {q : Char → Bool} :
    ∀ (a : List Char), (∀ c ∈ a, q c = true) → ∀ r,
      (a ++ r).takeWhile q = a ++ r.takeWhile q ∧
        (a ++ r).dropWhile q = r.dropWhile q := by
  intro a
  induction a with
  | nil => intro _ r; simp
  | cons x a' ih =>
    intro hq r
    have hx : q x = true := hq x (List.mem_cons_self _ _)
    have hrec := ih (fun c hc => hq c (List.mem_cons_of_mem _ hc)) r
    constructor
    · rw [List.cons_append, List.takeWhile_cons_of_pos hx, hrec.1, List.cons_append]
    · rw [List.cons_append, List.dropWhile_cons_of_pos hx, hrec.2]

theorem tagsOk_takeDrop (q : Char → Bool) (hq : ∀ c ∈ tagAllChars, q c = true) :
    ∀ (a : List Char), tagsOk a = true →
      tagsOk (a.takeWhile q) = true ∧ tagsOk (a.dropWhile q) = true := by
  have H : ∀ n (a : List Char), a.length ≤ n → tagsOk a = true →
      tagsOk (a.takeWhile q) = true ∧ tagsOk (a.dropWhile q) = true := by
    intro n
    induction n with
    | zero =>
      intro a ha h
      have he : a = [] := List.eq_nil_of_length_eq_zero (Nat.le_zero.mp ha)
      subst he
      exact ⟨rfl, rfl⟩
    | succ n ih =>
      intro a ha h
      rcases tagsOk_cases h with rfl | ⟨t, ht, r, rfl, hr⟩ | ⟨c, r, rfl, hc1, hc2, hr⟩
      · exact ⟨rfl, rfl⟩
      · have hall : ∀ c ∈ t, q c = true := fun c hc => hq c (tags_chars t ht c hc)
        obtain ⟨htake, hdrop⟩ := takeWhile_append_all t hall r
        have hlt : 0 < t.length := List.length_pos.mpr (tags_ne_nil t ht)
        have hlen : r.length ≤ n := by
          simp only [List.length_append] at ha
          omega
        obtain ⟨ih1, ih2⟩ := ih r hlen hr
        refine ⟨?_, ?_⟩
        · rw [htake, tagsOk_tag ht]
          exact ih1
        · rw [hdrop]
          exact ih2
      · have hlen : r.length ≤ n := by
          simp only [List.length_cons] at ha
          omega
        cases hqc : q c with
        | true =>
          obtain ⟨ih1, ih2⟩ := ih r hlen hr
          refine ⟨?_, ?_⟩
          · rw [List.takeWhile_cons_of_pos hqc, tagsOk_cons hc1 hc2]
            exact ih1
          · rw [List.dropWhile_cons_of_pos hqc]
            exact ih2
        | false =>
          refine ⟨?_, ?_⟩
          · rw [List.takeWhile_cons_of_neg (by simp [hqc])]
            rfl
          · rw [List.dropWhile_cons_of_neg (by simp [hqc])]
            exact h
  intro a h
  exact H a.length a le_rfl h

end TextUtils

namespace TextUtils

theorem trimL_eq_trimR (s : List Char) : trimL s = trimR (s.dropWhile isSpace) := rfl

theorem trimR_append (a b : List Char) :
    trimR (a ++ b) = if trimR b = [] then trimR a else a ++ trimR b := by
  unfold trimR
  rw [List.reverse_append, List.dropWhile_append]
  by_cases he : (b.reverse.dropWhile isSpace).isEmpty
  · rw [if_pos he, if_pos (by simp_all [List.isEmpty_iff])]
  · rw [if_neg he, if_neg (by simp_all [List.isEmpty_iff]), List.reverse_append,
      List.reverse_reverse]

theorem tags_trimR : ∀ t ∈ tags, trimR t = t := by decide

theorem trimR_single (c : Char) : trimR [c] = if isSpace c then [] else [c] := by
  unfold trimR
  cases hc : isSpace c with
  | true => simp [List.dropWhile, hc]
  | false => simp [List.dropWhile, hc]

theorem tagsOk_trimR : ∀ (s : List Char), tagsOk s = true → tagsOk (trimR s) = true := by
  have H : ∀ n (s : List Char), s.length ≤ n → tagsOk s = true →
      tagsOk (trimR s) = true := by
    intro n
    induction n with
    | zero =>
      intro s hs h
      have he : s = [] := List.eq_nil_of_length_eq_zero (Nat.le_zero.mp hs)
      subst he
      exact h
    | succ n ih =>
      intro s hs h
      rcases tagsOk_cases h with rfl | ⟨t, ht, r, rfl, hr⟩ | ⟨c, r, rfl, hc1, hc2, hr⟩
      · exact h
      · rw [trimR_append]
        have hlt : 0 < t.length := List.length_pos.mpr (tags_ne_nil t ht)
        have hlen : r.length ≤ n := by
          simp only [List.length_append] at hs
          omega
        have hrec := ih r hlen hr
        by_cases hre : trimR r = []
        · rw [if_pos hre, tags_trimR t ht]
          exact tags_tagsOk t ht
        · rw [if_neg hre, tagsOk_tag ht]
          exact hrec
      · have hsplit : c :: r = [c] ++ r := rfl
        rw [hsplit, trimR_append]
        have hlen : r.length ≤ n := by
          simp only [List.length_cons] at hs
          omega
        have hrec := ih r hlen hr
        by_cases hre : trimR r = []
        · rw [if_pos hre, trimR_single]
          cases hc : isSpace c with
          | true =>
            simp [hc, tagsOk, tagsOkAux]
          | false =>
            rw [if_neg (by simp [hc])]
            rw [show ([c] : List Char) = c :: [] from rfl, tagsOk_cons hc1 hc2]
            rfl
        · rw [if_neg hre, List.singleton_append, tagsOk_cons hc1 hc2]
          exact hrec
  intro s h
  exact H s.length s le_rfl h

theorem tagsOk_trimL (s : List Char) (h : tagsOk s = true) :
    tagsOk (trimL s) = true := by
  rw [trimL_eq_trimR]
  exact tagsOk_trimR _ (tagsOk_dropWhile isSpace (by decide) s h)

theorem tagsOk_no_script :
    ∀ (s : List Char), tagsOk s = true → hasSub "<script>".data s = false := by
  have H : ∀ n (s : List Char), s.length ≤ n → tagsOk s = true →
      hasSub "<script>".data s = false := by
    intro n
    induction n with
    | zero =>
      intro s hs h
      have he : s = [] := List.eq_nil_of_length_eq_zero (Nat.le_zero.mp hs)
      subst he
      rfl
    | succ n ih =>
      intro s hs h
      rcases tagsOk_cases h with rfl | ⟨t, ht, r, rfl, hr⟩ | ⟨c, r, rfl, hc1, hc2, hr⟩
      · rfl
      · have hlt : 0 < t.length := List.length_pos.mpr (tags_ne_nil t ht)
        have hlen : r.length ≤ n := by
          simp only [List.length_append] at hs
          omega
        have hrec := ih r hlen hr
        fin_cases ht <;> (simp [hasSub, List.isPrefixOf]; exact hrec)
      · have hlen : r.length ≤ n := by
          simp only [List.length_cons] at hs
          omega
        have hrec := ih r hlen hr
        have hbeq : ('<' == c) = false := beq_eq_false_iff_ne.mpr (Ne.symm hc1)
        simp [hasSub, List.isPrefixOf, hbeq]
        exact hrec
  intro s h
  exact H s.length s le_rfl h

end TextUtils

namespace TextUtils

theorem escCharSpec_no_angle (c : Char) :
    '<' ∉ escCharSpec c ∧ '>' ∉ escCharSpec c := by
  by_cases h1 : c = '&'
  · subst h1; decide
  by_cases h2 : c = '<'
  · subst h2; decide
  by_cases h3 : c = '>'
  · subst h3; decide
  by_cases h4 : c = '"'
  · subst h4; decide
  by_cases h5 : c = '\''
  · subst h5; decide
  simp only [escCharSpec, h1, h2, h3, h4, h5, if_false]
  constructor
  · intro hm
    exact h2 (List.mem_singleton.mp hm).symm
  · intro hm
    exact h3 (List.mem_singleton.mp hm).symm

theorem tagsOk_of_no_angle :
    ∀ (s : List Char), '<' ∉ s → '>' ∉ s → tagsOk s = true := by
  intro s
  induction s with
  | nil => intro _ _; rfl
  | cons c r ih =>
    intro h1 h2
    have hc1 : c ≠ '<' := fun he => h1 (he ▸ List.mem_cons_self _ _)
    have hc2 : c ≠ '>' := fun he => h2 (he ▸ List.mem_cons_self _ _)
    rw [tagsOk_cons hc1 hc2]
    exact ih (fun hm => h1 (List.mem_cons_of_mem _ hm))
      (fun hm => h2 (List.mem_cons_of_mem _ hm))

theorem tagsOk_escape (s : List Char) : tagsOk (escapeHtmlL s) = true := by
  rw [escapeHtmlL_eq_flatMap]
  refine tagsOk_of_no_angle _ ?_ ?_ <;>
    · intro hm
      rw [List.mem_flatMap] at hm
      obtain ⟨c, _, hc⟩ := hm
      first
        | exact (escCharSpec_no_angle c).1 hc
        | exact (escCharSpec_no_angle c).2 hc

theorem tick_not_tagChar : '`' ∉ tagAllChars := by decide

theorem nl_not_tagChar : '\n' ∉ tagAllChars := by decide

theorem tagsOk_fencePass :
    ∀ (fuel : Nat) (s : List Char), tagsOk s = true →
      tagsOk (fencePass fuel s) = true := by
  intro fuel
  induction fuel with
  | zero => intro s h; exact h
  | succ n ih =>
    intro s h
    cases h1 : splitFirst "```".data s with
    | none => simpa [fencePass, h1] using h
    | some pr =>
      obtain ⟨pre, rest1⟩ := pr
      cases h2 : splitFirst "```".data rest1 with
      | none => simpa [fencePass, h1, h2] using h
      | some pr2 =>
        obtain ⟨content, rest2⟩ := pr2
        have hs1 := splitFirst_eq h1
        have hs2 := splitFirst_eq h2
        rw [show pre ++ "```".data ++ rest1 =
            pre ++ '`' :: ('`' :: '`' :: rest1) from by simp] at hs1
        subst hs1
        obtain ⟨hpre, hrest1'⟩ := tagsOk_split _ _ _ h tick_not_tagChar
        rw [tagsOk_cons (by decide) (by decide),
          tagsOk_cons (by decide) (by decide)] at hrest1'
        rw [show content ++ "```".data ++ rest2 =
            content ++ '`' :: ('`' :: '`' :: rest2) from by simp] at hs2
        subst hs2
        obtain ⟨hcontent, hrest2'⟩ := tagsOk_split _ _ _ hrest1' tick_not_tagChar
        rw [tagsOk_cons (by decide) (by decide),
          tagsOk_cons (by decide) (by decide)] at hrest2'
        simp only [fencePass, h1, h2]
        have e1 := tagsOk_append pre "<pre><code>".data hpre (by decide)
        have e2 := tagsOk_append _ _ e1 (tagsOk_trimL content hcontent)
        have e3 := tagsOk_append _ _ e2 (by decide : tagsOk "</code></pre>".data = true)
        have e4 := tagsOk_append _ _ e3 (ih rest2 hrest2')
        simpa [List.append_assoc] using e4

theorem tagsOk_inlineCodePass :
    ∀ (fuel : Nat) (s : List Char), tagsOk s = true →
      tagsOk (inlineCodePass fuel s) = true := by
  intro fuel
  induction fuel with
  | zero => intro s h; exact h
  | succ n ih =>
    intro s h
    cases h1 : splitFirst ['`'] s with
    | none => simpa [inlineCodePass, h1] using h
    | some pr =>
      obtain ⟨pre, rest⟩ := pr
      have hs1 := splitFirst_eq h1
      rw [show pre ++ ['`'] ++ rest = pre ++ '`' :: rest from by simp] at hs1
      subst hs1
      obtain ⟨hpre, hrest⟩ := tagsOk_split _ _ _ h tick_not_tagChar
      cases h2 : splitFirst ['`'] rest with
      | none => simpa [inlineCodePass, h1, h2] using h
      | some pr2 =>
        obtain ⟨content, rest2⟩ := pr2
        have hs2 := splitFirst_eq h2
        rw [show content ++ ['`'] ++ rest2 = content ++ '`' :: rest2 from by simp] at hs2
        subst hs2
        obtain ⟨hcontent, hrest2⟩ := tagsOk_split _ _ _ hrest tick_not_tagChar
        cases content with
        | nil =>
          simp only [inlineCodePass, h1, h2]
          have e1 := tagsOk_append pre ['`'] hpre (by decide)
          have e2 := tagsOk_append _ _ e1 (ih _ hrest)
          simpa [List.append_assoc] using e2
        | cons c0 content' =>
          simp only [inlineCodePass, h1, h2]
          have e1 := tagsOk_append pre "<code>".data hpre (by decide)
          have e2 := tagsOk_append _ _ e1 hcontent
          have e3 := tagsOk_append _ _ e2 (by decide : tagsOk "</code>".data = true)
          have e4 := tagsOk_append _ _ e3 (ih _ hrest2)
          simpa [List.append_assoc] using e4

theorem tagsOk_boldPass (d : Char) (hd : d ∉ tagAllChars) :
    ∀ (fuel : Nat) (s : List Char), tagsOk s = true →
      tagsOk (boldPass d fuel s) = true := by
  have hd1 : d ≠ '<' := not_mem_tagAllChars_lt hd
  have hd2 : d ≠ '>' := not_mem_tagAllChars_gt hd
  intro fuel
  induction fuel with
  | zero => intro s h; exact h
  | succ n ih =>
    intro s h
    cases h1 : splitFirst [d, d] s with
    | none => simpa [boldPass, h1] using h
    | some pr =>
      obtain ⟨pre, rest1⟩ := pr
      cases h2 : splitFirst [d, d] rest1 with
      | none => simpa [boldPass, h1, h2] using h
      | some pr2 =>
        obtain ⟨content, rest2⟩ := pr2
        have hs1 := splitFirst_eq h1
        rw [show pre ++ [d, d] ++ rest1 = pre ++ d :: (d :: rest1) from by simp] at hs1
        subst hs1
        obtain ⟨hpre, hrest1'⟩ := tagsOk_split _ _ _ h hd
        rw [tagsOk_cons hd1 hd2] at hrest1'
        have hs2 := splitFirst_eq h2
        rw [show content ++ [d, d] ++ rest2 =
            content ++ d :: (d :: rest2) from by simp] at hs2
        subst hs2
        obtain ⟨hcontent, hrest2'⟩ := tagsOk_split _ _ _ hrest1' hd
        rw [tagsOk_cons hd1 hd2] at hrest2'
        cases h3 : splitFirst ['\n'] content with
        | none =>
          simp only [boldPass, h1, h2, h3]
          have e1 := tagsOk_append pre "<strong>".data hpre (by decide)
          have e2 := tagsOk_append _ _ e1 hcontent
          have e3 := tagsOk_append _ _ e2 (by decide : tagsOk "</strong>".data = true)
          have e4 := tagsOk_append _ _ e3 (ih _ hrest2')
          simpa [List.append_assoc] using e4
        | some pr3 =>
          obtain ⟨c1, c2⟩ := pr3
          have hs3 := splitFirst_eq h3
          rw [show c1 ++ ['\n'] ++ c2 = c1 ++ '\n' :: c2 from by simp] at hs3
          subst hs3
          obtain ⟨hc1ok, hc2ok⟩ := tagsOk_split _ _ _ hcontent nl_not_tagChar
          simp only [boldPass, h1, h2, h3]
          have hdd : tagsOk [d, d] = true := by
            rw [show [d, d] = d :: [d] from rfl, tagsOk_cons hd1 hd2,
              show [d] = d :: ([] : List Char) from rfl, tagsOk_cons hd1 hd2]
            rfl
          have hrecin : tagsOk (c2 ++ [d, d] ++ rest2) = true := by
            have e1 := tagsOk_append c2 [d, d] hc2ok hdd
            have e2 := tagsOk_append _ _ e1 hrest2'
            simpa [List.append_assoc] using e2
          have e1 := tagsOk_append pre [d, d] hpre hdd
          have e2 := tagsOk_append _ _ e1 hc1ok
          have e3 := tagsOk_append _ _ e2 (by decide : tagsOk ['\n'] = true)
          have e4 := tagsOk_append _ _ e3 (ih _ hrecin)
          simpa [List.append_assoc] using e4

end TextUtils

namespace TextUtils

theorem isSpace_ne_lt {w : Char} (h : isSpace w = true) : w ≠ '<' := by
  intro he
  subst he
  exact absurd h (by decide)

theorem isSpace_ne_gt {w : Char} (h : isSpace w = true) : w ≠ '>' := by
  intro he
  subst he
  exact absurd h (by decide)

theorem emClose_spec (d : Char) :
    ∀ (inner content g3 r : List Char), emClose d inner = some (content, g3, r) →
      inner = content ++ d :: (g3 ++ r) ∧
        (g3 = [] ∨ ∃ w, g3 = [w] ∧ isSpace w = true) := by
  intro inner
  induction inner with
  | nil => intro content g3 r h; exact absurd h (by simp [emClose])
  | cons c1 rest ih =>
    intro content g3 r h
    cases rest with
    | nil =>
      simp only [emClose] at h
      split_ifs at h with hc
      · simp only [Option.some.injEq, Prod.mk.injEq] at h
        obtain ⟨rfl, rfl, rfl⟩ := h
        subst hc
        exact ⟨rfl, Or.inl rfl⟩
    | cons c2 rest2 =>
      simp only [emClose] at h
      split_ifs at h with h1 h2
      · simp only [Bool.and_eq_true, decide_eq_true_eq] at h1
        obtain ⟨rfl, hsp⟩ := h1
        simp only [Option.some.injEq, Prod.mk.injEq] at h
        obtain ⟨rfl, rfl, rfl⟩ := h
        exact ⟨rfl, Or.inr ⟨c2, rfl, hsp⟩⟩
      · revert h
        cases hrec : emClose d (c2 :: rest2) with
        | none => intro h; exact absurd h (by simp)
        | some tr =>
          obtain ⟨content', g3', r'⟩ := tr
          intro h
          simp only [Option.some.injEq, Prod.mk.injEq] at h
          obtain ⟨rfl, rfl, rfl⟩ := h
          obtain ⟨heq, hg3⟩ := ih content' g3' r' hrec
          exact ⟨by rw [List.cons_append, ← heq], hg3⟩

theorem emCore_spec (d : Char) (s content g3 r : List Char)
    (h : emCore d s = some (content, g3, r)) :
    s = d :: (content ++ d :: (g3 ++ r)) ∧
      (g3 = [] ∨ ∃ w, g3 = [w] ∧ isSpace w = true) := by
  cases s with
  | nil => exact absurd h (by simp [emCore])
  | cons c rest =>
    simp only [emCore] at h
    split_ifs at h with hc
    · subst hc
      cases rest with
      | nil => exact absurd h (by simp)
      | cons c2 rest2 =>
        have h2 : (if isSpace c2 = true then none
            else emClose c (c2 :: rest2)) = some (content, g3, r) := h
        split_ifs at h2 with hsp
        obtain ⟨heq, hg3⟩ := emClose_spec c (c2 :: rest2) content g3 r h2
        exact ⟨by rw [← heq], hg3⟩

theorem emScanMid_copy (d : Char) :
    ∀ (a : List Char), (∀ c ∈ a, isSpace c = false) →
      ∀ (f : Nat) (rest : List Char),
        emScanMid d (f + a.length) (a ++ rest) = a ++ emScanMid d f rest := by
  intro a
  induction a with
  | nil => intro _ f rest; simp
  | cons x a' ih =>
    intro hsp f rest
    have hx : isSpace x = false := hsp x (List.mem_cons_self _ _)
    have hlen : f + (x :: a').length = (f + a'.length) + 1 := by
      simp [List.length_cons]
      omega
    rw [hlen, List.cons_append]
    simp only [emScanMid, hx, Bool.false_eq_true, if_false]
    rw [ih (fun c hc => hsp c (List.mem_cons_of_mem _ hc)) f rest]
    rfl

theorem emScanMid_copy_small (d : Char) :
    ∀ (f : Nat) (a : List Char), (∀ c ∈ a, isSpace c = false) → f ≤ a.length →
      ∀ rest, emScanMid d f (a ++ rest) = a ++ rest := by
  intro f
  induction f with
  | zero => intro a _ _ rest; rfl
  | succ n ih =>
    intro a hsp hf rest
    cases a with
    | nil => simp at hf
    | cons x a' =>
      have hx : isSpace x = false := hsp x (List.mem_cons_self _ _)
      rw [List.cons_append]
      simp only [emScanMid, hx, Bool.false_eq_true, if_false]
      rw [ih a' (fun c hc => hsp c (List.mem_cons_of_mem _ hc))
        (by simpa [List.length_cons] using hf) rest]

theorem emScanMid_br (d : Char) (hd : d ≠ '/') (f : Nat) (rest : List Char) :
    emScanMid d (f + 6) ("<br />".data ++ rest) =
      "<br />".data ++ emScanMid d f rest := by
  have hcore : emCore d ('/' :: '>' :: rest) = none := by
    simp [emCore, Ne.symm hd]
  show emScanMid d (((((f + 1) + 1) + 1) + 1) + 1 + 1)
      ('<' :: 'b' :: 'r' :: ' ' :: '/' :: '>' :: rest) = _
  simp only [emScanMid, hcore]
  rfl

theorem emScanMid_br_small (d : Char) (hd : d ≠ '/') (f : Nat) (hf : f ≤ 6)
    (rest : List Char) :
    emScanMid d f ("<br />".data ++ rest) = "<br />".data ++ rest := by
  have hcore : ∀ l, emCore d ('/' :: l) = none := by
    intro l
    simp [emCore, Ne.symm hd]
  have e1 : isSpace '<' = false := by decide
  have e2 : isSpace 'b' = false := by decide
  have e3 : isSpace 'r' = false := by decide
  have e4 : isSpace ' ' = true := by decide
  have e5 : isSpace '/' = false := by decide
  have e6 : isSpace '>' = false := by decide
  interval_cases f <;> simp [emScanMid, hcore, e1, e2, e3, e4, e5, e6]

theorem tags_no_space :
    ∀ t ∈ tags, t ≠ "<br />".data → ∀ c ∈ t, isSpace c = false := by decide

theorem tagsOk_emScanMid (d : Char) (hd : d ∉ tagAllChars) :
    ∀ (f : Nat) (s : List Char), tagsOk s = true →
      tagsOk (emScanMid d f s) = true := by
  have hd1 : d ≠ '<' := not_mem_tagAllChars_lt hd
  have hd2 : d ≠ '>' := not_mem_tagAllChars_gt hd
  have hdsl : d ≠ '/' := fun he => hd (he ▸ (by decide : '/' ∈ tagAllChars))
  intro f
  induction f using Nat.strong_induction_on with
  | _ f ih =>
    intro s h
    cases f with
    | zero => exact h
    | succ n =>
      rcases tagsOk_cases h with rfl | ⟨t, ht, r, rfl, hr⟩ | ⟨c, r, rfl, hc1, hc2, hr⟩
      · exact h
      · by_cases hbr : t = "<br />".data
        · subst hbr
          by_cases hf : 6 ≤ n + 1
          · rw [show n + 1 = (n + 1 - 6) + 6 from (Nat.sub_add_cancel hf).symm,
              emScanMid_br d hdsl]
            rw [tagsOk_tag ht]
            exact ih (n + 1 - 6) (by omega) r hr
          · rw [emScanMid_br_small d hdsl _ (by omega)]
            exact h
        · have hsp := tags_no_space t ht hbr
          by_cases hf : t.length ≤ n + 1
          · rw [show n + 1 = (n + 1 - t.length) + t.length from
              (Nat.sub_add_cancel hf).symm, emScanMid_copy d t hsp]
            rw [tagsOk_tag ht]
            have hlt : 0 < t.length := List.length_pos.mpr (tags_ne_nil t ht)
            exact ih (n + 1 - t.length) (by omega) r hr
          · rw [emScanMid_copy_small d _ t hsp (by omega)]
            exact h
      · cases hspc : isSpace c with
        | false =>
          simp only [emScanMid, hspc, Bool.false_eq_true, if_false]
          rw [tagsOk_cons hc1 hc2]
          exact ih n (by omega) r hr
        | true =>
          cases hcore : emCore d r with
          | none =>
            simp only [emScanMid, hspc, if_true, hcore]
            rw [tagsOk_cons hc1 hc2]
            exact ih n (by omega) r hr
          | some tr =>
            obtain ⟨content, g3, rest2⟩ := tr
            obtain ⟨heq, hg3⟩ := emCore_spec d r content g3 rest2 hcore
            subst heq
            rw [tagsOk_cons hd1 hd2] at hr
            obtain ⟨hcont, hg3r⟩ := tagsOk_split _ _ _ hr hd
            have hrest2 : tagsOk rest2 = true := by
              rcases hg3 with rfl | ⟨w, rfl, hw⟩
              · simpa using hg3r
              · rw [show (([w] : List Char) ++ rest2) = w :: rest2 from rfl,
                  tagsOk_cons (isSpace_ne_lt hw) (isSpace_ne_gt hw)] at hg3r
                exact hg3r
            simp only [emScanMid, hspc, if_true, hcore]
            have hg3ok : tagsOk g3 = true := by
              rcases hg3 with rfl | ⟨w, rfl, hw⟩
              · rfl
              · rw [show ([w] : List Char) = w :: [] from rfl,
                  tagsOk_cons (isSpace_ne_lt hw) (isSpace_ne_gt hw)]
                rfl
            have e1 := tagsOk_append "<em>".data content (by decide) hcont
            have e2 := tagsOk_append _ _ e1 (by decide : tagsOk "</em>".data = true)
            have e3 := tagsOk_append _ _ e2 hg3ok
            have e4 := tagsOk_append _ _ e3 (ih n (by omega) rest2 hrest2)
            rw [tagsOk_cons (isSpace_ne_lt hspc) (isSpace_ne_gt hspc)]
            simpa [List.append_assoc] using e4

theorem tagsOk_emPass (d : Char) (hd : d ∉ tagAllChars) (s : List Char)
    (h : tagsOk s = true) : tagsOk (emPass d s) = true := by
  have hd1 : d ≠ '<' := not_mem_tagAllChars_lt hd
  have hd2 : d ≠ '>' := not_mem_tagAllChars_gt hd
  unfold emPass
  cases hcore : emCore d s with
  | none => exact tagsOk_emScanMid d hd (s.length + 1) s h
  | some tr =>
    obtain ⟨content, g3, rest⟩ := tr
    obtain ⟨heq, hg3⟩ := emCore_spec d s content g3 rest hcore
    subst heq
    rw [tagsOk_cons hd1 hd2] at h
    obtain ⟨hcont, hg3r⟩ := tagsOk_split _ _ _ h hd
    have hrest : tagsOk rest = true := by
      rcases hg3 with rfl | ⟨w, rfl, hw⟩
      · simpa using hg3r
      · rw [show (([w] : List Char) ++ rest) = w :: rest from rfl,
          tagsOk_cons (isSpace_ne_lt hw) (isSpace_ne_gt hw)] at hg3r
        exact hg3r
    have hg3ok : tagsOk g3 = true := by
      rcases hg3 with rfl | ⟨w, rfl, hw⟩
      · rfl
      · rw [show ([w] : List Char) = w :: [] from rfl,
          tagsOk_cons (isSpace_ne_lt hw) (isSpace_ne_gt hw)]
        rfl
    have e1 := tagsOk_append "<em>".data content (by decide) hcont
    have e2 := tagsOk_append _ _ e1 (by decide : tagsOk "</em>".data = true)
    have e3 := tagsOk_append _ _ e2 hg3ok
    have e4 := tagsOk_append _ _ e3 (tagsOk_emScanMid d hd (rest.length + 1) rest hrest)
    simpa [List.append_assoc] using e4

end TextUtils

namespace TextUtils

theorem tagsOk_plain_append :
    ∀ (a : List Char), (∀ c ∈ a, c ≠ '<' ∧ c ≠ '>') → ∀ r,
      tagsOk (a ++ r) = tagsOk r := by
  intro a
  induction a with
  | nil => intro _ r; rfl
  | cons c a' ih =>
    intro hc r
    obtain ⟨h1, h2⟩ := hc c (List.mem_cons_self _ _)
    rw [List.cons_append, tagsOk_cons h1 h2]
    exact ih (fun x hx => hc x (List.mem_cons_of_mem _ hx)) r

theorem isAlnumAscii_ne {c : Char} (h : isAlnumAscii c = true) :
    c ≠ '<' ∧ c ≠ '>' := by
  constructor <;> intro he <;> subst he <;> exact absurd h (by decide)

theorem speakerMatch_spec (s label t6 : List Char)
    (h : speakerMatch s = some (label, t6)) :
    ∃ w tok t5 mid,
      isSpace w = true ∧ (∀ c ∈ tok, isAlnumAscii c = true) ∧
      label = "Speaker".data ++ w :: (tok ++ [':']) ∧
      (mid = [] ∨ mid = "</strong>".data) ∧ t5 = mid ++ t6 ∧
      ∃ pre1, (pre1 = [] ∨ pre1 = "<strong>".data) ∧
        s = pre1 ++ ("Speaker".data ++ (w :: (tok ++ ':' :: t5))) := by
  have hlen7 : "Speaker".data.length = 7 := rfl
  have hlen8 : "<strong>".data.length = 8 := rfl
  have hlen9 : "</strong>".data.length = 9 := rfl
  simp only [speakerMatch] at h
  by_cases h8 : "<strong>".data.isPrefixOf s = true
  · obtain ⟨u0, hu0⟩ := ( List.isPrefixOf_iff_prefix).mp h8
    rw [if_pos h8] at h
    have hdrop : s.drop 8 = u0 := by
      rw [← hu0, ← hlen8]
      exact List.drop_left _ _
    rw [hdrop] at h
    split_ifs at h with hsp
    split at h
    · rename_i w t3 heq
      split_ifs at h with hw
      rename_i htokE
      split at h
      · rename_i t5 heq2
        simp only [Option.some.injEq, Prod.mk.injEq] at h
        obtain ⟨hlab, ht6⟩ := h
        obtain ⟨u, hu⟩ := ( List.isPrefixOf_iff_prefix).mp hsp
        have hu7 : u0.drop 7 = u := by
          rw [← hu, ← hlen7]
          exact List.drop_left _ _
        have huw : u = w :: t3 := by rw [← hu7, heq]
        have ht3 : t3 = t3.takeWhile isAlnumAscii ++ ':' :: t5 := by
          conv_lhs => rw [← List.takeWhile_append_dropWhile isAlnumAscii t3]
          rw [heq2]
        refine ⟨w, t3.takeWhile isAlnumAscii, t5, ?_⟩
        by_cases hcl : "</strong>".data.isPrefixOf t5 = true
        · obtain ⟨v, hv⟩ := ( List.isPrefixOf_iff_prefix).mp hcl
          have hv9 : t5.drop 9 = v := by
            rw [← hv, ← hlen9]
            exact List.drop_left _ _
          rw [if_pos hcl, hv9] at ht6
          refine ⟨"</strong>".data, hw,
            fun c hc => List.mem_takeWhile_imp hc, hlab.symm, Or.inr rfl,
            by rw [← hv, ht6], "<strong>".data, Or.inr rfl, ?_⟩
          rw [← hu0]
          congr 1
          rw [← hu, huw]
          conv_lhs => rw [ht3]
        · rw [if_neg hcl] at ht6
          refine ⟨[], hw,
            fun c hc => List.mem_takeWhile_imp hc, hlab.symm, Or.inl rfl,
            by rw [ht6]; rfl, "<strong>".data, Or.inr rfl, ?_⟩
          rw [← hu0]
          congr 1
          rw [← hu, huw]
          conv_lhs => rw [ht3]
      · exact absurd h (by simp)
    · exact absurd h (by simp)
  · rw [if_neg h8] at h
    split_ifs at h with hsp
    split at h
    · rename_i w t3 heq
      split_ifs at h with hw
      rename_i htokE
      split at h
      · rename_i t5 heq2
        simp only [Option.some.injEq, Prod.mk.injEq] at h
        obtain ⟨hlab, ht6⟩ := h
        obtain ⟨u, hu⟩ := ( List.isPrefixOf_iff_prefix).mp hsp
        have hu7 : s.drop 7 = u := by
          rw [← hu, ← hlen7]
          exact List.drop_left _ _
        have huw : u = w :: t3 := by rw [← hu7, heq]
        have ht3 : t3 = t3.takeWhile isAlnumAscii ++ ':' :: t5 := by
          conv_lhs => rw [← List.takeWhile_append_dropWhile isAlnumAscii t3]
          rw [heq2]
        refine ⟨w, t3.takeWhile isAlnumAscii, t5, ?_⟩
        by_cases hcl : "</strong>".data.isPrefixOf t5 = true
        · obtain ⟨v, hv⟩ := ( List.isPrefixOf_iff_prefix).mp hcl
          have hv9 : t5.drop 9 = v := by
            rw [← hv, ← hlen9]
            exact List.drop_left _ _
          rw [if_pos hcl, hv9] at ht6
          refine ⟨"</strong>".data, hw,
            fun c hc => List.mem_takeWhile_imp hc, hlab.symm, Or.inr rfl,
            by rw [← hv, ht6], [], Or.inl rfl, ?_⟩
          rw [List.nil_append, ← hu, huw]
          conv_lhs => rw [ht3]
        · rw [if_neg hcl] at ht6
          refine ⟨[], hw,
            fun c hc => List.mem_takeWhile_imp hc, hlab.symm, Or.inl rfl,
            by rw [ht6]; rfl, [], Or.inl rfl, ?_⟩
          rw [List.nil_append, ← hu, huw]
          conv_lhs => rw [ht3]
      · exact absurd h (by simp)
    · exact absurd h (by simp)

end TextUtils

namespace TextUtils

theorem tags_no_nl : ∀ t ∈ tags, '\n' ∉ t := by decide

theorem beq_nl_false {c : Char} (hc : c ≠ '\n') : (c == '\n') = false :=
  beq_eq_false_iff_ne.mpr hc

theorem tagsOk_plain (a : List Char) (ha : ∀ c ∈ a, c ≠ '<' ∧ c ≠ '>') :
    tagsOk a = true := by
  have := tagsOk_plain_append a ha []
  simpa using this

theorem speakerScan_copy :
    ∀ (a : List Char), '\n' ∉ a → ∀ (f : Nat) (rest : List Char),
      speakerScan (f + a.length) false (a ++ rest) = a ++ speakerScan f false rest := by
  intro a
  induction a with
  | nil => intro _ f rest; simp
  | cons x a' ih =>
    intro hnl f rest
    have hx : x ≠ '\n' := fun he => hnl (he ▸ List.mem_cons_self _ _)
    have hlen : f + (x :: a').length = (f + a'.length) + 1 := by
      simp [List.length_cons]
      omega
    rw [hlen, List.cons_append]
    simp only [speakerScan, Bool.false_eq_true, if_false, beq_nl_false hx]
    rw [ih (fun hm => hnl (List.mem_cons_of_mem _ hm)) f rest]
    rfl

theorem speakerScan_copy_small :
    ∀ (f : Nat) (a : List Char), '\n' ∉ a → f ≤ a.length → ∀ rest,
      speakerScan f false (a ++ rest) = a ++ rest := by
  intro f
  induction f with
  | zero => intro a _ _ rest; rfl
  | succ n ih =>
    intro a hnl hf rest
    cases a with
    | nil => simp at hf
    | cons x a' =>
      have hx : x ≠ '\n' := fun he => hnl (he ▸ List.mem_cons_self _ _)
      rw [List.cons_append]
      simp only [speakerScan, Bool.false_eq_true, if_false, beq_nl_false hx]
      rw [ih a' (fun hm => hnl (List.mem_cons_of_mem _ hm))
        (by simpa [List.length_cons] using hf) rest]

theorem speakerMatch_tagsOk {s label t6 : List Char}
    (hm : speakerMatch s = some (label, t6)) (h : tagsOk s = true) :
    tagsOk t6 = true ∧ ∀ c ∈ label, c ≠ '<' ∧ c ≠ '>' := by
  obtain ⟨w, tok, t5, mid, hw, htok, hlab, hmid, ht5, pre1, hpre1, hs⟩ :=
    speakerMatch_spec s label t6 hm
  have hplain : ∀ c ∈ "Speaker".data ++ w :: (tok ++ [':']), c ≠ '<' ∧ c ≠ '>' := by
    intro c hc
    rcases List.mem_append.mp hc with hc | hc
    · exact (by decide : ∀ c ∈ "Speaker".data, c ≠ '<' ∧ c ≠ '>') c hc
    · rcases List.mem_cons.mp hc with rfl | hc
      · exact ⟨isSpace_ne_lt hw, isSpace_ne_gt hw⟩
      · rcases List.mem_append.mp hc with hc | hc
        · exact isAlnumAscii_ne (htok c hc)
        · have hcc : c = ':' := List.mem_singleton.mp hc
          subst hcc
          exact ⟨by decide, by decide⟩
  subst hs
  have h2 : tagsOk ("Speaker".data ++ (w :: (tok ++ ':' :: t5))) = true := by
    rcases hpre1 with rfl | rfl
    · simpa using h
    · rwa [tagsOk_tag (by decide : "<strong>".data ∈ tags)] at h
  rw [tagsOk_plain_append "Speaker".data (by decide),
    tagsOk_cons (isSpace_ne_lt hw) (isSpace_ne_gt hw),
    tagsOk_plain_append tok (fun c hc => isAlnumAscii_ne (htok c hc)),
    tagsOk_cons (by decide) (by decide)] at h2
  subst ht5
  constructor
  · rcases hmid with rfl | rfl
    · simpa using h2
    · rwa [tagsOk_tag (by decide : "</strong>".data ∈ tags)] at h2
  · intro c hc
    exact hplain c (hlab ▸ hc)

theorem tagsOk_speakerScan :
    ∀ (f : Nat) (flag : Bool) (s : List Char), tagsOk s = true →
      tagsOk (speakerScan f flag s) = true := by
  intro f
  induction f using Nat.strong_induction_on with
  | _ f ih =>
    intro flag s h
    cases f with
    | zero => exact h
    | succ n =>
      rcases tagsOk_cases h with rfl | ⟨t, ht, r, rfl, hr⟩ | ⟨c, r, rfl, hc1, hc2, hr⟩
      · simpa [speakerScan] using h
      · obtain ⟨t1, rfl⟩ := tags_head_lt t ht
        have htnl : '\n' ∉ '<' :: t1 := tags_no_nl _ ht
        have ht1nl : '\n' ∉ t1 := fun hm => htnl (List.mem_cons_of_mem _ hm)
        cases flag with
        | false =>
          by_cases hf : ('<' :: t1).length ≤ n + 1
          · rw [show n + 1 = (n + 1 - ('<' :: t1).length) + ('<' :: t1).length from
              (Nat.sub_add_cancel hf).symm, speakerScan_copy _ htnl, tagsOk_tag ht]
            exact ih _ (by simp [List.length_cons]; omega) false r hr
          · rw [speakerScan_copy_small _ _ htnl (by omega)]
            exact h
        | true =>
          cases hm : speakerMatch ('<' :: t1 ++ r) with
          | some pr =>
            obtain ⟨label, t6⟩ := pr
            rw [List.cons_append] at hm
            obtain ⟨ht6, hlabplain⟩ := speakerMatch_tagsOk hm (by rwa [List.cons_append] at h)
            rw [show speakerScan (n + 1) true ('<' :: t1 ++ r) =
                "<strong>".data ++ label ++ "</strong>".data ++ speakerScan n false t6 from by
              rw [List.cons_append]
              simp [speakerScan, hm]]
            have e1 := tagsOk_append "<strong>".data label (by decide)
              (tagsOk_plain label hlabplain)
            have e2 := tagsOk_append _ _ e1 (by decide : tagsOk "</strong>".data = true)
            have e3 := tagsOk_append _ _ e2 (ih n (by omega) false t6 ht6)
            exact e3
          | none =>
            rw [List.cons_append] at hm
            rw [show speakerScan (n + 1) true ('<' :: t1 ++ r) =
                '<' :: speakerScan n false (t1 ++ r) from by
              rw [List.cons_append]
              simp [speakerScan, hm]]
            by_cases hf : t1.length ≤ n
            · rw [show n = (n - t1.length) + t1.length from (Nat.sub_add_cancel hf).symm,
                speakerScan_copy _ ht1nl, ← List.cons_append, tagsOk_tag ht]
              exact ih _ (by omega) false r hr
            · rw [speakerScan_copy_small _ _ ht1nl (by omega), ← List.cons_append]
              exact h
      · cases hm : speakerMatch (c :: r) with
        | some pr =>
          obtain ⟨label, t6⟩ := pr
          obtain ⟨ht6, hlabplain⟩ := speakerMatch_tagsOk hm h
          cases flag with
          | true =>
            rw [show speakerScan (n + 1) true (c :: r) =
                "<strong>".data ++ label ++ "</strong>".data ++ speakerScan n false t6 from by
              simp [speakerScan, hm]]
            have e1 := tagsOk_append "<strong>".data label (by decide)
              (tagsOk_plain label hlabplain)
            have e2 := tagsOk_append _ _ e1 (by decide : tagsOk "</strong>".data = true)
            have e3 := tagsOk_append _ _ e2 (ih n (by omega) false t6 ht6)
            exact e3
          | false =>
            rw [show speakerScan (n + 1) false (c :: r) =
                c :: speakerScan n (c == '\n') r from by simp [speakerScan]]
            rw [tagsOk_cons hc1 hc2]
            exact ih n (by omega) _ r hr
        | none =>
          cases flag with
          | true =>
            rw [show speakerScan (n + 1) true (c :: r) =
                c :: speakerScan n (c == '\n') r from by simp [speakerScan, hm]]
            rw [tagsOk_cons hc1 hc2]
            exact ih n (by omega) _ r hr
          | false =>
            rw [show speakerScan (n + 1) false (c :: r) =
                c :: speakerScan n (c == '\n') r from by simp [speakerScan]]
            rw [tagsOk_cons hc1 hc2]
            exact ih n (by omega) _ r hr

end TextUtils

namespace TextUtils

theorem ulMatch_eq_nil {s : List Char} (he : s.dropWhile isSpace = []) :
    ulMatch s = none := by
  unfold ulMatch
  rw [he]

theorem ulMatch_eq {s : List Char} {m : Char} {t2 : List Char}
    (he : s.dropWhile isSpace = m :: t2) :
    ulMatch s =
      (if m = '-' || m = '*' then
        if (t2.takeWhile isSpace).isEmpty then none
        else some ((t2.dropWhile isSpace).takeWhile (fun c => c != '\n'),
          (t2.dropWhile isSpace).dropWhile (fun c => c != '\n'))
      else none) := by
  unfold ulMatch
  rw [he]

theorem ulMatch_tagsOk :
    ∀ (s item t4 : List Char), ulMatch s = some (item, t4) → tagsOk s = true →
      tagsOk (trimL item) = true ∧ tagsOk t4 = true := by
  intro s item t4 hm hs
  have hd : tagsOk (s.dropWhile isSpace) = true := tagsOk_dropWhile isSpace (by decide) s hs
  cases he : s.dropWhile isSpace with
  | nil => rw [ulMatch_eq_nil he] at hm; exact absurd hm (by simp)
  | cons m t2 =>
    rw [ulMatch_eq he] at hm
    rw [he] at hd
    split_ifs at hm with h1 h2
    simp only [Option.some.injEq, Prod.mk.injEq] at hm
    obtain ⟨hitem, ht4⟩ := hm
    have hmne : m ≠ '<' ∧ m ≠ '>' := by
      simp only [Bool.or_eq_true, decide_eq_true_eq] at h1
      rcases h1 with rfl | rfl <;> exact ⟨by decide, by decide⟩
    rw [tagsOk_cons hmne.1 hmne.2] at hd
    have ht3 : tagsOk (t2.dropWhile isSpace) = true :=
      tagsOk_dropWhile isSpace (by decide) t2 hd
    have hpair := tagsOk_takeDrop (fun c => c != '\n') (by decide) _ ht3
    subst hitem
    subst ht4
    exact ⟨tagsOk_trimL _ hpair.1, hpair.2⟩

theorem olMatch_tagsOk :
    ∀ (s item t4 : List Char), olMatch s = some (item, t4) → tagsOk s = true →
      tagsOk (trimL item) = true ∧ tagsOk t4 = true := by
  intro s item t4 hm hs
  have ht1 : tagsOk (s.dropWhile isSpace) = true := tagsOk_dropWhile isSpace (by decide) s hs
  have ht1d : tagsOk ((s.dropWhile isSpace).dropWhile Char.isDigit) = true :=
    tagsOk_dropWhile Char.isDigit (by decide) _ ht1
  simp only [olMatch] at hm
  split_ifs at hm with h1
  split at hm
  · rename_i t2 heq
    rw [heq] at ht1d
    rw [tagsOk_cons (by decide) (by decide)] at ht1d
    split_ifs at hm with h2
    simp only [Option.some.injEq, Prod.mk.injEq] at hm
    obtain ⟨hitem, ht4⟩ := hm
    have ht3 : tagsOk (t2.dropWhile isSpace) = true :=
      tagsOk_dropWhile isSpace (by decide) t2 ht1d
    have hpair := tagsOk_takeDrop (fun c => c != '\n') (by decide) _ ht3
    subst hitem
    subst ht4
    exact ⟨tagsOk_trimL _ hpair.1, hpair.2⟩
  · exact absurd hm (by simp)

theorem listScan_copy (mf : List Char → Option (List Char × List Char))
    (o cl : List Char) :
    ∀ (a : List Char), '\n' ∉ a → ∀ (f : Nat) (rest : List Char),
      listScan mf o cl (f + a.length) false (a ++ rest) =
        a ++ listScan mf o cl f false rest := by
  intro a
  induction a with
  | nil => intro _ f rest; simp
  | cons x a' ih =>
    intro hnl f rest
    have hx : x ≠ '\n' := fun he => hnl (he ▸ List.mem_cons_self _ _)
    have hlen : f + (x :: a').length = (f + a'.length) + 1 := by
      simp [List.length_cons]
      omega
    rw [hlen, List.cons_append]
    simp only [listScan, Bool.false_eq_true, if_false, beq_nl_false hx]
    rw [ih (fun hm => hnl (List.mem_cons_of_mem _ hm)) f rest]
    rfl

theorem listScan_copy_small (mf : List Char → Option (List Char × List Char))
    (o cl : List Char) :
    ∀ (f : Nat) (a : List Char), '\n' ∉ a → f ≤ a.length → ∀ rest,
      listScan mf o cl f false (a ++ rest) = a ++ rest := by
  intro f
  induction f with
  | zero => intro a _ _ rest; rfl
  | succ n ih =>
    intro a hnl hf rest
    cases a with
    | nil => simp at hf
    | cons x a' =>
      have hx : x ≠ '\n' := fun he => hnl (he ▸ List.mem_cons_self _ _)
      rw [List.cons_append]
      simp only [listScan, Bool.false_eq_true, if_false, beq_nl_false hx]
      rw [ih a' (fun hm => hnl (List.mem_cons_of_mem _ hm))
        (by simpa [List.length_cons] using hf) rest]

theorem tagsOk_listScan (mf : List Char → Option (List Char × List Char))
    (o cl : List Char)
    (hmf : ∀ s item t4, mf s = some (item, t4) → tagsOk s = true →
      tagsOk (trimL item) = true ∧ tagsOk t4 = true)
    (ho : tagsOk o = true) (hcl : tagsOk cl = true) :
    ∀ (f : Nat) (flag : Bool) (s : List Char), tagsOk s = true →
      tagsOk (listScan mf o cl f flag s) = true := by
  intro f
  induction f using Nat.strong_induction_on with
  | _ f ih =>
    intro flag s h
    cases f with
    | zero => exact h
    | succ n =>
      rcases tagsOk_cases h with rfl | ⟨t, ht, r, rfl, hr⟩ | ⟨c, r, rfl, hc1, hc2, hr⟩
      · simpa [listScan] using h
      · obtain ⟨t1, rfl⟩ := tags_head_lt t ht
        have htnl : '\n' ∉ '<' :: t1 := tags_no_nl _ ht
        have ht1nl : '\n' ∉ t1 := fun hm => htnl (List.mem_cons_of_mem _ hm)
        cases flag with
        | false =>
          by_cases hf : ('<' :: t1).length ≤ n + 1
          · rw [show n + 1 = (n + 1 - ('<' :: t1).length) + ('<' :: t1).length from
              (Nat.sub_add_cancel hf).symm, listScan_copy mf o cl _ htnl, tagsOk_tag ht]
            exact ih _ (by simp [List.length_cons]; omega) false r hr
          · rw [listScan_copy_small mf o cl _ _ htnl (by omega)]
            exact h
        | true =>
          cases hm : mf ('<' :: t1 ++ r) with
          | some pr =>
            obtain ⟨item, t4⟩ := pr
            rw [List.cons_append] at hm
            obtain ⟨hitem, ht4⟩ := hmf _ _ _ hm (by rwa [List.cons_append] at h)
            rw [show listScan mf o cl (n + 1) true ('<' :: t1 ++ r) =
                o ++ trimL item ++ cl ++ listScan mf o cl n false t4 from by
              rw [List.cons_append]
              simp [listScan, hm]]
            have e1 := tagsOk_append o (trimL item) ho hitem
            have e2 := tagsOk_append _ cl e1 hcl
            exact tagsOk_append _ _ e2 (ih n (by omega) false t4 ht4)
          | none =>
            rw [List.cons_append] at hm
            rw [show listScan mf o cl (n + 1) true ('<' :: t1 ++ r) =
                '<' :: listScan mf o cl n false (t1 ++ r) from by
              rw [List.cons_append]
              simp [listScan, hm]]
            by_cases hf : t1.length ≤ n
            · rw [show n = (n - t1.length) + t1.length from (Nat.sub_add_cancel hf).symm,
                listScan_copy mf o cl _ ht1nl, ← List.cons_append, tagsOk_tag ht]
              exact ih _ (by omega) false r hr
            · rw [listScan_copy_small mf o cl _ _ ht1nl (by omega), ← List.cons_append]
              exact h
      · cases flag with
        | true =>
          cases hm : mf (c :: r) with
          | some pr =>
            obtain ⟨item, t4⟩ := pr
            obtain ⟨hitem, ht4⟩ := hmf _ _ _ hm h
            rw [show listScan mf o cl (n + 1) true (c :: r) =
                o ++ trimL item ++ cl ++ listScan mf o cl n false t4 from by
              simp [listScan, hm]]
            have e1 := tagsOk_append o (trimL item) ho hitem
            have e2 := tagsOk_append _ cl e1 hcl
            exact tagsOk_append _ _ e2 (ih n (by omega) false t4 ht4)
          | none =>
            rw [show listScan mf o cl (n + 1) true (c :: r) =
                c :: listScan mf o cl n (c == '\n') r from by simp [listScan, hm]]
            rw [tagsOk_cons hc1 hc2]
            exact ih n (by omega) _ r hr
        | false =>
          rw [show listScan mf o cl (n + 1) false (c :: r) =
              c :: listScan mf o cl n (c == '\n') r from by simp [listScan]]
          rw [tagsOk_cons hc1 hc2]
          exact ih n (by omega) _ r hr

theorem tagsOk_ulStage (s : List Char) (h : tagsOk s = true) :
    tagsOk (ulStage s) = true :=
  tagsOk_listScan ulMatch _ _ ulMatch_tagsOk (by decide) (by decide) _ true s h

theorem tagsOk_olStage (s : List Char) (h : tagsOk s = true) :
    tagsOk (olStage s) = true :=
  tagsOk_listScan olMatch _ _ olMatch_tagsOk (by decide) (by decide) _ true s h

end TextUtils

namespace TextUtils

theorem tags_drop_one : ∀ t ∈ tags, '<' ∉ t.drop 1 := by decide

theorem isPrefixOf_head_ne {x c : Char} (h : c ≠ x) (ts l : List Char) :
    (x :: ts).isPrefixOf (c :: l) = false := by
  simp [List.isPrefixOf, beq_eq_false_iff_ne.mpr (Ne.symm h)]

theorem tag_isPrefixOf_append_false {t ct : List Char} (ht : t ∈ tags) (hct : ct ∈ tags)
    (hne : ct ≠ t) (r : List Char) : ct.isPrefixOf (t ++ r) = false := by
  by_contra hb
  rw [Bool.not_eq_false] at hb
  have h1 : ct <+: t ++ r := ( List.isPrefixOf_iff_prefix).mp hb
  have h2 : t <+: t ++ r := ⟨r, rfl⟩
  rcases List.prefix_or_prefix_of_prefix h1 h2 with h3 | h3
  · exact hne ( tags_nonprefix ct hct t ht (( List.isPrefixOf_iff_prefix).mpr h3))
  · exact hne ( tags_nonprefix t ht ct hct (( List.isPrefixOf_iff_prefix).mpr h3)).symm

theorem mergePass_cons (ct ot : List Char) (n : Nat) (c : Char) (rest : List Char) :
    mergePass ct ot (n + 1) (c :: rest) =
      (if ct.isPrefixOf (c :: rest) then
        (if ('\n' :: ot).isPrefixOf ((c :: rest).drop ct.length) then
          mergePass ct ot n (((c :: rest).drop ct.length).drop (ot.length + 1))
        else if ot.isPrefixOf ((c :: rest).drop ct.length) then
          mergePass ct ot n (((c :: rest).drop ct.length).drop ot.length)
        else c :: mergePass ct ot n rest)
      else c :: mergePass ct ot n rest) := rfl

theorem mergePass_copy (cts ot : List Char) :
    ∀ (a : List Char), '<' ∉ a → ∀ (f : Nat) (rest : List Char),
      mergePass ('<' :: cts) ot (f + a.length) (a ++ rest) =
        a ++ mergePass ('<' :: cts) ot f rest := by
  intro a
  induction a with
  | nil => intro _ f rest; simp
  | cons x a' ih =>
    intro hnl f rest
    have hx : x ≠ '<' := fun he => hnl (he ▸ List.mem_cons_self _ _)
    have hlen : f + (x :: a').length = (f + a'.length) + 1 := by
      simp [List.length_cons]
      omega
    rw [hlen, List.cons_append, mergePass_cons, isPrefixOf_head_ne hx,
      if_neg Bool.false_ne_true, ih (fun hm => hnl (List.mem_cons_of_mem _ hm)) f rest]
    rfl

theorem mergePass_copy_small (cts ot : List Char) :
    ∀ (f : Nat) (a : List Char), '<' ∉ a → f ≤ a.length → ∀ rest,
      mergePass ('<' :: cts) ot f (a ++ rest) = a ++ rest := by
  intro f
  induction f with
  | zero => intro a _ _ rest; rfl
  | succ n ih =>
    intro a hnl hf rest
    cases a with
    | nil => simp at hf
    | cons x a' =>
      have hx : x ≠ '<' := fun he => hnl (he ▸ List.mem_cons_self _ _)
      rw [List.cons_append, mergePass_cons, isPrefixOf_head_ne hx,
        if_neg Bool.false_ne_true,
        ih a' (fun hm => hnl (List.mem_cons_of_mem _ hm))
          (by simpa [List.length_cons] using hf) rest]

theorem tagsOk_mergePass (ct ot : List Char) (hctm : ct ∈ tags) (hotm : ot ∈ tags) :
    ∀ (f : Nat) (s : List Char), tagsOk s = true → tagsOk (mergePass ct ot f s) = true := by
  obtain ⟨cts, rfl⟩ := tags_head_lt ct hctm
  have hcts : '<' ∉ cts := tags_drop_one _ hctm
  intro f
  induction f using Nat.strong_induction_on with
  | _ f ih =>
    intro s h
    cases f with
    | zero => exact h
    | succ n =>
      rcases tagsOk_cases h with rfl | ⟨t, ht, r, rfl, hr⟩ | ⟨c, r, rfl, hc1, hc2, hr⟩
      · simpa [mergePass] using h
      · by_cases hteq : t = '<' :: cts
        · subst hteq
          have hpre : ('<' :: cts).isPrefixOf (('<' :: cts) ++ r) = true :=
            ( List.isPrefixOf_iff_prefix).mpr ⟨r, rfl⟩
          have hdrop : (('<' :: cts) ++ r).drop ('<' :: cts).length = r :=
            List.drop_left _ _
          rw [List.cons_append, mergePass_cons, ← List.cons_append, if_pos hpre, hdrop]
          by_cases h1 : ('\n' :: ot).isPrefixOf r = true
          · rw [if_pos h1]
            obtain ⟨r2, hr2⟩ := ( List.isPrefixOf_iff_prefix).mp h1
            subst hr2
            have hd2 : (('\n' :: ot) ++ r2).drop (ot.length + 1) = r2 := by
              have h5 := List.drop_left ('\n' :: ot) r2
              rw [List.length_cons] at h5
              exact h5
            rw [hd2]
            rw [List.cons_append, tagsOk_cons (by decide) (by decide),
              tagsOk_tag hotm] at hr
            exact ih n (by omega) r2 hr
          · rw [if_neg h1]
            by_cases h2 : ot.isPrefixOf r = true
            · rw [if_pos h2]
              obtain ⟨r2, hr2⟩ := ( List.isPrefixOf_iff_prefix).mp h2
              subst hr2
              rw [List.drop_left]
              rw [tagsOk_tag hotm] at hr
              exact ih n (by omega) r2 hr
            · rw [if_neg h2]
              by_cases hf : cts.length ≤ n
              · rw [show n = (n - cts.length) + cts.length from (Nat.sub_add_cancel hf).symm,
                  mergePass_copy cts ot _ hcts, ← List.cons_append, tagsOk_tag hctm]
                exact ih _ (by omega) r hr
              · rw [mergePass_copy_small cts ot _ _ hcts (by omega), ← List.cons_append]
                exact h
        · obtain ⟨t1, rfl⟩ := tags_head_lt t ht
          have ht1 : '<' ∉ t1 := tags_drop_one _ ht
          have hpf : ('<' :: cts).isPrefixOf (('<' :: t1) ++ r) = false :=
            tag_isPrefixOf_append_false ht hctm (Ne.symm hteq) r
          rw [List.cons_append, mergePass_cons, ← List.cons_append, hpf,
            if_neg Bool.false_ne_true]
          by_cases hf : t1.length ≤ n
          · rw [show n = (n - t1.length) + t1.length from (Nat.sub_add_cancel hf).symm,
              mergePass_copy cts ot t1 ht1, ← List.cons_append, tagsOk_tag ht]
            exact ih _ (by omega) r hr
          · rw [mergePass_copy_small cts ot _ _ ht1 (by omega), ← List.cons_append]
            exact h
      · have hpf : ('<' :: cts).isPrefixOf (c :: r) = false := isPrefixOf_head_ne hc1 cts r
        rw [mergePass_cons, hpf, if_neg Bool.false_ne_true, tagsOk_cons hc1 hc2]
        exact ih n (by omega) r hr

end TextUtils

namespace TextUtils

theorem tagsOk_ulMergeStage (s : List Char) (h : tagsOk s = true) :
    tagsOk (ulMergeStage s) = true :=
  tagsOk_mergePass "</ul>".data "<ul>".data (by decide) (by decide) _ s h

theorem tagsOk_olMergeStage (s : List Char) (h : tagsOk s = true) :
    tagsOk (olMergeStage s) = true :=
  tagsOk_mergePass "</ol>".data "<ol>".data (by decide) (by decide) _ s h

theorem splitNl_ne_nil : ∀ s : List Char, splitNl s ≠ [] := by
  intro s
  cases s with
  | nil => simp [splitNl]
  | cons c rest =>
    by_cases hc : c = '\n'
    · simp [splitNl, hc]
    · cases he : splitNl rest with
      | nil => simp [splitNl, hc, he]
      | cons l ls => simp [splitNl, hc, he]

theorem splitNl_append_no_nl :
    ∀ (a : List Char), '\n' ∉ a → ∀ (r l : List Char) (ls : List (List Char)),
      splitNl r = l :: ls → splitNl (a ++ r) = (a ++ l) :: ls := by
  intro a
  induction a with
  | nil => intro _ r l ls h; simpa using h
  | cons x a' ih =>
    intro hnl r l ls h
    have hx : x ≠ '\n' := fun he => hnl (he ▸ List.mem_cons_self _ _)
    have h2 := ih (fun hm => hnl (List.mem_cons_of_mem _ hm)) r l ls h
    rw [List.cons_append]
    simp [splitNl, hx, h2]

theorem splitNl_tagsOk :
    ∀ (s : List Char), tagsOk s = true → ∀ l ∈ splitNl s, tagsOk l = true := by
  have H : ∀ (n : Nat) (s : List Char), s.length ≤ n → tagsOk s = true →
      ∀ l ∈ splitNl s, tagsOk l = true := by
    intro n
    induction n with
    | zero =>
      intro s hle h l hl
      have hs : s = [] := List.length_eq_zero.mp (Nat.le_zero.mp hle)
      subst hs
      simp [splitNl] at hl
      subst hl
      rfl
    | succ n ih =>
      intro s hle h l hl
      rcases tagsOk_cases h with rfl | ⟨t, ht, r, rfl, hr⟩ | ⟨c, r, rfl, hc1, hc2, hr⟩
      · simp [splitNl] at hl
        subst hl
        rfl
      · have htnl := tags_no_nl t ht
        have hrlen : r.length ≤ n := by
          have h1 := List.length_append t r
          have h2 : 0 < t.length := List.length_pos.mpr (tags_ne_nil t ht)
          omega
        cases he : splitNl r with
        | nil => exact absurd he (splitNl_ne_nil r)
        | cons l0 ls =>
          rw [splitNl_append_no_nl t htnl r l0 ls he] at hl
          rcases List.mem_cons.mp hl with rfl | hl2
          · rw [tagsOk_tag ht]
            exact ih r hrlen hr l0 (by rw [he]; exact List.mem_cons_self _ _)
          · exact ih r hrlen hr l (by rw [he]; exact List.mem_cons_of_mem _ hl2)
      · have hrlen : r.length ≤ n := by
          have h1 := List.length_cons c r
          omega
        by_cases hc : c = '\n'
        · subst hc
          rw [show splitNl ('\n' :: r) = [] :: splitNl r from by simp [splitNl]] at hl
          rcases List.mem_cons.mp hl with rfl | hl2
          · rfl
          · exact ih r hrlen hr l hl2
        · cases he : splitNl r with
          | nil => exact absurd he (splitNl_ne_nil r)
          | cons l0 ls =>
            rw [show splitNl (c :: r) = (c :: l0) :: ls from by simp [splitNl, hc, he]] at hl
            rcases List.mem_cons.mp hl with rfl | hl2
            · rw [tagsOk_cons hc1 hc2]
              exact ih r hrlen hr l0 (by rw [he]; exact List.mem_cons_self _ _)
            · exact ih r hrlen hr l (by rw [he]; exact List.mem_cons_of_mem _ hl2)
  intro s
  exact H s.length s (le_refl _)

theorem lineStep_tagsOk (inP : Bool) (line : List Char) (h : tagsOk line = true) :
    tagsOk (lineStep inP line).1 = true := by
  have hl := tagsOk_trimL line h
  by_cases h1 : (trimL line).isEmpty
  · cases inP <;> simp [lineStep, h1] <;> decide
  · by_cases h2 : startsAnyTag (trimL line)
    · cases inP <;> simp [lineStep, h1, h2]
      · exact hl
      · exact tagsOk_append "</p>".data (trimL line) (by decide) hl
    · cases inP <;> simp [lineStep, h1, h2]
      · exact tagsOk_append "<p>".data (trimL line) (by decide) hl
      · exact tagsOk_append "<br />".data (trimL line) (by decide) hl

theorem paraFold_tagsOk :
    ∀ (lines : List (List Char)) (inP : Bool),
      (∀ l ∈ lines, tagsOk l = true) → tagsOk (paraFold inP lines).1 = true := by
  intro lines
  induction lines with
  | nil => intro inP _; rfl
  | cons line rest ih =>
    intro inP hall
    have h1 := lineStep_tagsOk inP line (hall line (List.mem_cons_self _ _))
    have h2 := ih (lineStep inP line).2 (fun l hl => hall l (List.mem_cons_of_mem _ hl))
    simpa [paraFold] using tagsOk_append _ _ h1 h2

end TextUtils

namespace TextUtils

theorem removeEmptyP_cons (n : Nat) (c : Char) (rest : List Char) :
    removeEmptyP (n + 1) (c :: rest) =
      (if "<p>".data.isPrefixOf (c :: rest) then
        (if "</p>".data.isPrefixOf ((rest.drop 2).dropWhile isSpace) then
          removeEmptyP n (((rest.drop 2).dropWhile isSpace).drop 4)
        else c :: removeEmptyP n rest)
      else c :: removeEmptyP n rest) := rfl

theorem prefixP_false {c : Char} (hc : c ≠ '<') (l : List Char) :
    "<p>".data.isPrefixOf (c :: l) = false := by
  have hp : "<p>".data = '<' :: ['p', '>'] := rfl
  rw [hp]
  exact isPrefixOf_head_ne hc _ _

theorem removeEmptyP_copy :
    ∀ (a : List Char), '<' ∉ a → ∀ (f : Nat) (rest : List Char),
      removeEmptyP (f + a.length) (a ++ rest) = a ++ removeEmptyP f rest := by
  intro a
  induction a with
  | nil => intro _ f rest; simp
  | cons x a' ih =>
    intro hnl f rest
    have hx : x ≠ '<' := fun he => hnl (he ▸ List.mem_cons_self _ _)
    have hlen : f + (x :: a').length = (f + a'.length) + 1 := by
      simp [List.length_cons]
      omega
    rw [hlen, List.cons_append, removeEmptyP_cons, prefixP_false hx,
      if_neg Bool.false_ne_true, ih (fun hm => hnl (List.mem_cons_of_mem _ hm)) f rest]
    rfl

theorem removeEmptyP_copy_small :
    ∀ (f : Nat) (a : List Char), '<' ∉ a → f ≤ a.length → ∀ rest,
      removeEmptyP f (a ++ rest) = a ++ rest := by
  intro f
  induction f with
  | zero => intro a _ _ rest; rfl
  | succ n ih =>
    intro a hnl hf rest
    cases a with
    | nil => simp at hf
    | cons x a' =>
      have hx : x ≠ '<' := fun he => hnl (he ▸ List.mem_cons_self _ _)
      rw [List.cons_append, removeEmptyP_cons, prefixP_false hx,
        if_neg Bool.false_ne_true,
        ih a' (fun hm => hnl (List.mem_cons_of_mem _ hm))
          (by simpa [List.length_cons] using hf) rest]

theorem tagsOk_removeEmptyP :
    ∀ (f : Nat) (s : List Char), tagsOk s = true → tagsOk (removeEmptyP f s) = true := by
  intro f
  induction f using Nat.strong_induction_on with
  | _ f ih =>
    intro s h
    cases f with
    | zero => exact h
    | succ n =>
      rcases tagsOk_cases h with rfl | ⟨t, ht, r, rfl, hr⟩ | ⟨c, r, rfl, hc1, hc2, hr⟩
      · simpa [removeEmptyP] using h
      · by_cases hteq : t = "<p>".data
        · subst hteq
          have hs : "<p>".data ++ r = '<' :: ('p' :: '>' :: r) := rfl
          rw [hs, removeEmptyP_cons]
          have hpre : "<p>".data.isPrefixOf ('<' :: ('p' :: '>' :: r)) = true := by
            simp [List.isPrefixOf]
          rw [if_pos hpre]
          have hd2 : (('p' :: '>' :: r) : List Char).drop 2 = r := rfl
          rw [hd2]
          have hr2 : tagsOk (r.dropWhile isSpace) = true :=
            tagsOk_dropWhile isSpace (by decide) r hr
          by_cases h1 : "</p>".data.isPrefixOf (r.dropWhile isSpace) = true
          · rw [if_pos h1]
            obtain ⟨r3, hr3⟩ := ( List.isPrefixOf_iff_prefix).mp h1
            rw [← hr3]
            have hd4 : ("</p>".data ++ r3).drop 4 = r3 := List.drop_left "</p>".data r3
            rw [hd4]
            rw [← hr3, tagsOk_tag (by decide : "</p>".data ∈ tags)] at hr2
            exact ih n (by omega) r3 hr2
          · rw [if_neg h1]
            rw [show (('p' :: '>' :: r) : List Char) = ['p', '>'] ++ r from rfl]
            by_cases hf : (['p', '>'] : List Char).length ≤ n
            · rw [show n = (n - (['p', '>'] : List Char).length) +
                  (['p', '>'] : List Char).length from (Nat.sub_add_cancel hf).symm,
                removeEmptyP_copy (['p', '>'] : List Char) (by decide),
                ← List.cons_append,
                tagsOk_tag (by decide : (('<' :: ['p', '>']) : List Char) ∈ tags)]
              exact ih _ (by omega) r hr
            · rw [removeEmptyP_copy_small _ (['p', '>'] : List Char) (by decide) (by omega),
                ← List.cons_append]
              exact h
        · obtain ⟨t1, rfl⟩ := tags_head_lt t ht
          have hpf : "<p>".data.isPrefixOf (('<' :: t1) ++ r) = false :=
            tag_isPrefixOf_append_false ht (by decide) (Ne.symm hteq) r
          rw [List.cons_append, removeEmptyP_cons, ← List.cons_append, hpf,
            if_neg Bool.false_ne_true]
          have ht1 : '<' ∉ t1 := tags_drop_one _ ht
          by_cases hf : t1.length ≤ n
          · rw [show n = (n - t1.length) + t1.length from (Nat.sub_add_cancel hf).symm,
              removeEmptyP_copy t1 ht1, ← List.cons_append, tagsOk_tag ht]
            exact ih _ (by omega) r hr
          · rw [removeEmptyP_copy_small _ t1 ht1 (by omega), ← List.cons_append]
            exact h
      · have hpf : "<p>".data.isPrefixOf (c :: r) = false := prefixP_false hc1 r
        rw [removeEmptyP_cons, hpf, if_neg Bool.false_ne_true, tagsOk_cons hc1 hc2]
        exact ih n (by omega) r hr

end TextUtils

namespace TextUtils

theorem removeExactP_cons (n : Nat) (c : Char) (rest : List Char) :
    removeExactP (n + 1) (c :: rest) =
      (if "<p></p>".data.isPrefixOf (c :: rest) then removeExactP n (rest.drop 6)
      else c :: removeExactP n rest) := rfl

theorem prefix7_false {c : Char} (hc : c ≠ '<') (l : List Char) :
    "<p></p>".data.isPrefixOf (c :: l) = false := by
  have hp : "<p></p>".data = '<' :: "p></p>".data := rfl
  rw [hp]
  exact isPrefixOf_head_ne hc _ _

theorem removeExactP_copy :
    ∀ (a : List Char), '<' ∉ a → ∀ (f : Nat) (rest : List Char),
      removeExactP (f + a.length) (a ++ rest) = a ++ removeExactP f rest := by
  intro a
  induction a with
  | nil => intro _ f rest; simp
  | cons x a' ih =>
    intro hnl f rest
    have hx : x ≠ '<' := fun he => hnl (he ▸ List.mem_cons_self _ _)
    have hlen : f + (x :: a').length = (f + a'.length) + 1 := by
      simp [List.length_cons]
      omega
    rw [hlen, List.cons_append, removeExactP_cons, prefix7_false hx,
      if_neg Bool.false_ne_true, ih (fun hm => hnl (List.mem_cons_of_mem _ hm)) f rest]
    rfl

theorem removeExactP_copy_small :
    ∀ (f : Nat) (a : List Char), '<' ∉ a → f ≤ a.length → ∀ rest,
      removeExactP f (a ++ rest) = a ++ rest := by
  intro f
  induction f with
  | zero => intro a _ _ rest; rfl
  | succ n ih =>
    intro a hnl hf rest
    cases a with
    | nil => simp at hf
    | cons x a' =>
      have hx : x ≠ '<' := fun he => hnl (he ▸ List.mem_cons_self _ _)
      rw [List.cons_append, removeExactP_cons, prefix7_false hx,
        if_neg Bool.false_ne_true,
        ih a' (fun hm => hnl (List.mem_cons_of_mem _ hm))
          (by simpa [List.length_cons] using hf) rest]

theorem exactP_prefix_tag {t : List Char} (ht : t ∈ tags) (hne : t ≠ "<p>".data)
    (r : List Char) : "<p></p>".data.isPrefixOf (t ++ r) = false := by
  by_contra hb
  rw [Bool.not_eq_false] at hb
  have h1 := ( List.isPrefixOf_iff_prefix).mp hb
  have h2 : t <+: t ++ r := ⟨r, rfl⟩
  rcases List.prefix_or_prefix_of_prefix h1 h2 with h3 | h3
  · have h4 := ( List.isPrefixOf_iff_prefix).mpr h3
    have h5 := (by decide : ∀ t ∈ tags, "<p></p>".data.isPrefixOf t = false) t ht
    rw [h5] at h4
    exact absurd h4 Bool.false_ne_true
  · exact hne ((by decide : ∀ t ∈ tags, t.isPrefixOf "<p></p>".data = true →
      t = "<p>".data) t ht (( List.isPrefixOf_iff_prefix).mpr h3))

theorem tagsOk_removeExactP :
    ∀ (f : Nat) (s : List Char), tagsOk s = true → tagsOk (removeExactP f s) = true := by
  intro f
  induction f using Nat.strong_induction_on with
  | _ f ih =>
    intro s h
    cases f with
    | zero => exact h
    | succ n =>
      rcases tagsOk_cases h with rfl | ⟨t, ht, r, rfl, hr⟩ | ⟨c, r, rfl, hc1, hc2, hr⟩
      · simpa [removeExactP] using h
      · by_cases hteq : t = "<p>".data
        · subst hteq
          by_cases hpre : "<p></p>".data.isPrefixOf ("<p>".data ++ r) = true
          · obtain ⟨r3, hr3⟩ := ( List.isPrefixOf_iff_prefix).mp hpre
            have hr4 : "<p>".data ++ ("</p>".data ++ r3) = "<p>".data ++ r := by
              rw [← List.append_assoc]
              exact hr3
            have hr5 : r = "</p>".data ++ r3 := (List.append_cancel_left hr4).symm
            subst hr5
            have hs : "<p>".data ++ ("</p>".data ++ r3) =
                '<' :: ('p' :: '>' :: '<' :: '/' :: 'p' :: '>' :: r3) := rfl
            rw [hs, removeExactP_cons]
            have hpre2 : "<p></p>".data.isPrefixOf
                ('<' :: ('p' :: '>' :: '<' :: '/' :: 'p' :: '>' :: r3)) = true := by
              simp [List.isPrefixOf]
            rw [if_pos hpre2]
            have hd6 : (('p' :: '>' :: '<' :: '/' :: 'p' :: '>' :: r3) : List Char).drop 6 =
                r3 := rfl
            rw [hd6]
            rw [tagsOk_tag (by decide : "</p>".data ∈ tags)] at hr
            exact ih n (by omega) r3 hr
          · have hs : "<p>".data ++ r = '<' :: ('p' :: '>' :: r) := rfl
            rw [hs, removeExactP_cons, ← hs, if_neg hpre]
            rw [show (('p' :: '>' :: r) : List Char) = ['p', '>'] ++ r from rfl]
            by_cases hf : (['p', '>'] : List Char).length ≤ n
            · rw [show n = (n - (['p', '>'] : List Char).length) +
                  (['p', '>'] : List Char).length from (Nat.sub_add_cancel hf).symm,
                removeExactP_copy (['p', '>'] : List Char) (by decide),
                ← List.cons_append,
                tagsOk_tag (by decide : (('<' :: ['p', '>']) : List Char) ∈ tags)]
              exact ih _ (by omega) r hr
            · rw [removeExactP_copy_small _ (['p', '>'] : List Char) (by decide) (by omega),
                ← List.cons_append]
              exact h
        · obtain ⟨t1, rfl⟩ := tags_head_lt t ht
          have hpf : "<p></p>".data.isPrefixOf (('<' :: t1) ++ r) = false :=
            exactP_prefix_tag ht hteq r
          rw [List.cons_append, removeExactP_cons, ← List.cons_append, hpf,
            if_neg Bool.false_ne_true]
          have ht1 : '<' ∉ t1 := tags_drop_one _ ht
          by_cases hf : t1.length ≤ n
          · rw [show n = (n - t1.length) + t1.length from (Nat.sub_add_cancel hf).symm,
              removeExactP_copy t1 ht1, ← List.cons_append, tagsOk_tag ht]
            exact ih _ (by omega) r hr
          · rw [removeExactP_copy_small _ t1 ht1 (by omega), ← List.cons_append]
            exact h
      · have hpf : "<p></p>".data.isPrefixOf (c :: r) = false := prefix7_false hc1 r
        rw [removeExactP_cons, hpf, if_neg Bool.false_ne_true, tagsOk_cons hc1 hc2]
        exact ih n (by omega) r hr

end TextUtils

namespace TextUtils

theorem tagsOk_paragraphPass (s : List Char) (h : tagsOk s = true) :
    tagsOk (paragraphPass s) = true := by
  have hlines := splitNl_tagsOk s h
  have hfold := paraFold_tagsOk (splitNl s) false hlines
  have hbody : tagsOk (if (paraFold false (splitNl s)).2 then
      (paraFold false (splitNl s)).1 ++ "</p>".data
      else (paraFold false (splitNl s)).1) = true := by
    by_cases hp : (paraFold false (splitNl s)).2 = true
    · rw [if_pos hp]
      exact tagsOk_append _ _ hfold (by decide)
    · rw [if_neg hp]
      exact hfold
  simp only [paragraphPass]
  exact tagsOk_removeExactP _ _ (tagsOk_removeEmptyP _ _ hbody)

theorem tagsOk_mdPipeline (s : List Char) : tagsOk (mdPipeline s) = true := by
  have h0 := tagsOk_escape s
  have h1 : tagsOk (fenceStage (escapeHtmlL s)) = true := tagsOk_fencePass _ _ h0
  have h2 : tagsOk (inlineCodeStage (fenceStage (escapeHtmlL s))) = true :=
    tagsOk_inlineCodePass _ _ h1
  have h3 : tagsOk (speakerStage (inlineCodeStage (fenceStage (escapeHtmlL s)))) = true :=
    tagsOk_speakerScan _ _ _ h2
  have h4 : tagsOk (boldStage '*'
      (speakerStage (inlineCodeStage (fenceStage (escapeHtmlL s))))) = true :=
    tagsOk_boldPass '*' (by decide) _ _ h3
  have h5 : tagsOk (boldStage '_' (boldStage '*'
      (speakerStage (inlineCodeStage (fenceStage (escapeHtmlL s)))))) = true :=
    tagsOk_boldPass '_' (by decide) _ _ h4
  have h6 := tagsOk_emPass '*' (by decide) _ h5
  have h7 := tagsOk_emPass '_' (by decide) _ h6
  have h8 := tagsOk_ulStage _ h7
  have h9 := tagsOk_ulMergeStage _ h8
  have h10 := tagsOk_olStage _ h9
  have h11 := tagsOk_olMergeStage _ h10
  exact tagsOk_paragraphPass _ h11

end TextUtils

namespace TextUtils

/-- C1: for every input string `s`, the output of `markdownToHtml` never
contains the literal substring `<script>`, even when `s` itself contains
`<script>`: the initial escape pass replaces every `<` and `>` of the input,
and every later rewrite pass only emits complete tags from the fixed
whitelist (the `tagsOk` invariant, preserved by all twelve pipeline stages),
none of which can reassemble a `<script>` tag. -/
theorem C1_no_script_in_output (s : String) :
    hasSub "<script>".data (markdownToHtml s).data = false := by
  cases hb : (trimL s.data).isEmpty with
  | true =>
    rw [markdownToHtml_blank hb]
    decide
  | false =>
    rw [markdownToHtml_data_eq s hb]
    exact tagsOk_no_script _ (tagsOk_mdPipeline s.data)

end TextUtils
